import Mathlib

/-
  Verification development for the Renormalizer model / spectra modules.

  Shallow embedding of:
    src/renormalizer/model/model.py   (Model, HolsteinModel, VibronicModel,
                                       SpinBosonModel, construct_j_matrix)
    src/renormalizer/spectra/base.py  (SpectraTdMpsJobBase)
    src/ephMPS/model/phonon.py        (Phonon.gs_mps)

  Conventions of the embedding:
  - Python dicts are association lists (key, value) in insertion order;
    assignment to an existing key updates in place, assignment to a fresh
    key appends at the end, exactly as CPython dicts behave.
  - Python floats are modelled as exact rationals; numpy allclose is
    modelled with its exact default tolerances rtol = 1e-5, atol = 1e-8.
  - Fallible Python code (raise / failing assert / KeyError / IndexError)
    is modelled with the Except monad over an error type PyError.
  - DoF name strings "e_<i>" / "v_<i>" are modelled by the inductive
    DofName, which carries the same information as the f-strings built
    and parsed in model.py.
-/

/-- Errors that the embedded Python code can raise. -/
inductive PyError where
  | valueError (msg : String)
  | keyError
  | assertionError
  | indexError
  | attributeError
deriving DecidableEq, Repr

/-- Degree-of-freedom names: the strings "e_<i>" and "v_<i>" of model.py. -/
inductive DofName where
  | e (i : Nat)
  | v (i : Nat)
deriving DecidableEq, Repr

/-- Local operator symbol with quantum number, embedding renormalizer.utils.Op
as used in model.py: Op(symbol, qn). -/
structure Op where
  symbol : String
  qn : Int
deriving DecidableEq, Repr

/-- Association-list lookup scanning from the head; on duplicate-free lists this
is exactly Python dict lookup. -/
def alookup {K V : Type} [DecidableEq K] : List (K × V) → K → Option V
  | [], _ => none
  | kv :: rest, k => if kv.1 = k then some kv.2 else alookup rest k

/-- Python dict assignment d[k] = v: update in place if the key exists,
append at the end otherwise. -/
def dictAssign {K V : Type} [DecidableEq K] (d : List (K × V)) (k : K) (v : V) :
    List (K × V) :=
  if (alookup d k).isSome then
    d.map (fun kv => if kv.1 = k then (kv.1, v) else kv)
  else
    d ++ [(k, v)]

/-- Python defaultdict(list) element append d[k].append(a): extend the list at
an existing key, create a fresh singleton entry otherwise. -/
def dictAppend {K A : Type} [DecidableEq K] (d : List (K × List A)) (k : K) (a : A) :
    List (K × List A) :=
  if (alookup d k).isSome then
    d.map (fun kv => if kv.1 = k then (kv.1, kv.2 ++ [a]) else kv)
  else
    d ++ [(k, [a])]

/-
  src/renormalizer/spectra/base.py, SpectraTdMpsJobBase
-/

/-- Embeds the spectratype handling of SpectraTdMpsJobBase.__init__
(src/renormalizer/spectra/base.py lines 21-26): assert the type is "emi" or
"abs" (a failing assert raises AssertionError), then select the excitation
number nexciton: 1 for "emi", 0 otherwise. -/
def spectraNexciton (spectratype : String) : Except PyError Nat :=
  if spectratype = "emi" ∨ spectratype = "abs" then
    if spectratype = "emi" then Except.ok 1 else Except.ok 0
  else
    Except.error PyError.assertionError

/-- The part of a bra-ket pair that SpectraTdMpsJobBase.process_mps reads:
its ft overlap sample. -/
structure BraKetPair (α : Type) where
  ft : α

/-- Embeds SpectraTdMpsJobBase.process_mps (src/renormalizer/spectra/base.py
lines 32-33): append the ft sample of the pair to the accumulated list. -/
def process_mps {α : Type} (autocorr : List α) (p : BraKetPair α) : List α :=
  autocorr ++ [p.ft]

/-- Invoke process_mps once per pair, in order, starting from the accumulated
samples so far; models the per-step callback sequence of a Spectra job. -/
def runProcessMps {α : Type} (autocorr : List α) : List (BraKetPair α) → List α
  | [] => autocorr
  | p :: ps => runProcessMps (process_mps autocorr p) ps

/-
  src/renormalizer/model/model.py, Model.get_mpos
-/

/-- The compiled-operator cache self.mpos of a Model: a dict keyed by the
cache key. -/
abbrev MpoCache (V : Type) := List (Nat × V)

/-- Outcome of one Model.get_mpos call: the returned operator, the cache after
the call, and whether the builder function was invoked. -/
structure GetMposResult (V : Type) where
  mpos : V
  cache : MpoCache V
  invoked : Bool
deriving DecidableEq, Repr

/-- Embeds Model.get_mpos (src/renormalizer/model/model.py lines 141-147):
on a cache miss invoke the builder and store the result, on a hit return the
stored value without invoking the builder. -/
def get_mpos {V : Type} (cache : MpoCache V) (key : Nat) (f : Unit → V) :
    GetMposResult V :=
  match alookup cache key with
  | some v => ⟨v, cache, false⟩
  | none => let v := f (); ⟨v, (key, v) :: cache, true⟩

/-- Run a sequence of get_mpos calls against a cache, returning the final cache
and the per-call trace of (key, builder invoked). -/
def runGetMpos {V : Type} (cache : MpoCache V) :
    List (Nat × (Unit → V)) → MpoCache V × List (Nat × Bool)
  | [] => (cache, [])
  | (k, f) :: calls =>
      let r := get_mpos cache k f
      let rest := runGetMpos r.cache calls
      (rest.1, (k, r.invoked) :: rest.2)

/-- Number of calls in a trace that invoked the builder for the given key. -/
def countInvoked (key : Nat) (trace : List (Nat × Bool)) : Nat :=
  (trace.filter (fun t => decide (t.1 = key) && t.2)).length

/-
  src/renormalizer/model/model.py, HolsteinModel.j_constant
-/

/-- True exactly when the Except value is a ValueError. -/
def isValueError {α : Type} : Except PyError α → Bool
  | Except.error (PyError.valueError _) => true
  | _ => false

/-- Embeds HolsteinModel.j_constant (src/renormalizer/model/model.py lines
278-296) on the raveled entries of self.j_matrix. j_set is the Python set of
the entries, modelled by dedup; set.pop() on the empty set raises KeyError
(the len == 0 branch); in the len == 2 branch removing 0 leaves exactly one
element, which is returned; every other shape raises ValueError. -/
def j_constant (entries : List ℚ) : Except PyError ℚ :=
  let j_set := entries.dedup
  if j_set.length = 0 then
    Except.error PyError.keyError
  else if j_set.length = 2 ∧ 0 ∈ j_set then
    Except.ok (j_set.erase 0).headI
  else
    Except.error (PyError.valueError "J is not constant")

/-- The semantic success condition of j_constant: the entry multiset consists
of the single non-zero value j plus zeros, with both actually present. -/
def singleNonZeroPlusZeros (entries : List ℚ) (j : ℚ) : Prop :=
  j ≠ 0 ∧ 0 ∈ entries ∧ j ∈ entries ∧ ∀ x ∈ entries, x = 0 ∨ x = j

instance (entries : List ℚ) (j : ℚ) : Decidable (singleNonZeroPlusZeros entries j) := by
  unfold singleNonZeroPlusZeros; infer_instance

/-
  src/renormalizer/model/model.py, Model.__init__
  (local basis classes of renormalizer.utils.basis, which are outside the
  excerpt, are carried as an inductive tag with their construction data)
-/

/-- Local basis of one site, as instantiated by model.py: BasisSimpleElectron,
BasisSHO(omega, nbas), BasisMultiElectronVac(n), BasisHalfSpin. -/
inductive BasisSet where
  | simpleElectron
  | sho (omega : ℚ) (nbas : Nat)
  | multiElectronVac (ndof : Nat)
  | halfSpin
deriving DecidableEq, Repr

/-- Modelled from the spec: local dimension nbas of each basis class of
renormalizer.utils.basis, which is not part of the excerpt. The spec
describes a simple two-level electronic basis, a harmonic-oscillator basis
with truncation level passed at construction, a half-spin basis, and a
composite vacuum-plus-occupation basis spanning ndof electronic DoFs. -/
def BasisSet.nbas : BasisSet → Nat
  | BasisSet.simpleElectron => 2
  | BasisSet.sho _ n => n
  | BasisSet.multiElectronVac n => n + 1
  | BasisSet.halfSpin => 2

/-- Modelled from the spec: the multi_dof flag of the basis classes of
renormalizer.utils.basis; only the composite multi-electron basis spans
several DoFs. -/
def BasisSet.multi_dof : BasisSet → Bool
  | BasisSet.multiElectronVac _ => true
  | _ => false

/-- The order argument of Model.__init__: dict form (DoF name to site index)
or list form (position = site index). -/
inductive OrderArg where
  | dict (d : List (DofName × Nat))
  | list (l : List DofName)

/-- The basis argument of Model.__init__: list form (one per site) or dict
form (keyed by DoF name). -/
inductive BasisArg where
  | list (l : List BasisSet)
  | dict (d : List (DofName × BasisSet))

/-- Symbolic operator table of a Model: dict from DoF-name tuples to lists of
terms, each term a tuple of local operators with a scalar factor. -/
abbrev ModelDict := List (List DofName × List (List Op × ℚ))

/-- Dipole dict: DoF-name tuple to transition dipole value. -/
abbrev DipoleDict := List (List DofName × ℚ)

/-- The order dict as built by the first lines of Model.__init__: a dict
argument is taken as is, a list argument is enumerated into a dict. -/
def derivedOrder : OrderArg → List (DofName × Nat)
  | OrderArg.dict d => d
  | OrderArg.list l => l.enum.foldl (fun d io => dictAssign d io.2 io.1) []

/-- set(self.order.values()) of Model.__init__: the distinct order values. -/
def orderValueSet (o : OrderArg) : List Nat :=
  ((derivedOrder o).map Prod.snd).dedup

/-- The contiguity condition tested by Model.__init__ for dict-form basis:
min of the value set is 0 and max is its cardinality minus one. -/
def contiguousFromZero (vals : List Nat) : Bool :=
  match vals.min?, vals.max? with
  | some mn, some mx => decide (mn = 0) && decide (mx = vals.length - 1)
  | _, _ => false

/-- A constructed Model: order dict, per-site basis list, the multi_dof flag,
the symbolic operator table, the dipole table, and pbond_list. -/
structure ModelS where
  order : List (DofName × Nat)
  basis : List BasisSet
  multi_dof_basis : Bool
  model : ModelDict
  dipole : DipoleDict
  pbond_list : List Nat
deriving Repr

/-- Fill step of the dict-basis branch of Model.__init__:
self.basis[dof_idx] = basis[dof_name] for each order item, over an array
pre-filled with None; a DoF name missing from the basis dict is a KeyError. -/
def fillBasisSlots (bd : List (DofName × BasisSet)) :
    List (DofName × Nat) → List (Option BasisSet) →
    Except PyError (List (Option BasisSet))
  | [], arr => Except.ok arr
  | (name, idx) :: rest, arr =>
      match alookup bd name with
      | none => Except.error PyError.keyError
      | some b => fillBasisSlots bd rest (arr.set idx (some b))

/-- Collapse the filled slot array; a remaining None would make the later
b.multi_dof attribute access fail (cannot happen once the contiguity check
passed, but the embedding stays total). -/
def collapseSlots : List (Option BasisSet) → Except PyError (List BasisSet)
  | [] => Except.ok []
  | none :: _ => Except.error PyError.attributeError
  | some b :: rest => (collapseSlots rest).map (fun l => b :: l)

/-- Embeds Model.__init__ (src/renormalizer/model/model.py lines 56-90).
Dict-form order is stored as is; list-form order is enumerated. A list-form
basis is stored as is with no validation; a dict-form basis first checks that
the set of order values is contiguous integers from 0 (min() of an empty set
raises ValueError in Python, a failed check raises
ValueError "order is not continuous integers from 0"), then distributes the
basis dict over the site array. Then the multi_dof flag and pbond_list are
derived. -/
def resolveBasisArg (orderD : List (DofName × Nat)) :
    BasisArg → Except PyError (List BasisSet)
  | BasisArg.list l => Except.ok l
  | BasisArg.dict bd =>
      let vals := (orderD.map Prod.snd).dedup
      match vals.min?, vals.max? with
      | some mn, some mx =>
          if mn ≠ 0 ∨ mx ≠ vals.length - 1 then
            Except.error (PyError.valueError "order is not continuous integers from 0")
          else
            match fillBasisSlots bd orderD (List.replicate (mx + 1) none) with
            | Except.error e => Except.error e
            | Except.ok slots => collapseSlots slots
      | _, _ => Except.error (PyError.valueError "min() arg is an empty sequence")

/-- Embeds the remainder of Model.__init__: resolve the basis argument, derive
the multi_dof flag and pbond_list, and store everything. -/
def modelInit (order : OrderArg) (basis : BasisArg) (model : ModelDict)
    (dipole : DipoleDict) : Except PyError ModelS :=
  let orderD := derivedOrder order
  match resolveBasisArg orderD basis with
  | Except.error e => Except.error e
  | Except.ok basisL =>
      Except.ok ⟨orderD, basisL, basisL.any BasisSet.multi_dof, model, dipole,
        basisL.map BasisSet.nbas⟩

/-
  src/renormalizer/model/model.py, HolsteinModel.__init__
-/

/-- Modelled from the spec: the vibrational mode record of
renormalizer.model.mol.Phonon, which is outside the excerpt. Per the spec a
phonon carries frequency and equilibrium-displacement pairs for the two
electronic surfaces, an optional cubic force constant (zero when absent), and
the physical-dimension parameter; model.py reads exactly the fields omega[0],
omega[1], dis[1], force3rd, n_phys_dim. -/
structure PhononR where
  omega : ℚ × ℚ
  dis : ℚ × ℚ
  force3rd : ℚ × ℚ
  n_phys_dim : Nat
deriving DecidableEq, Repr

/-- Modelled from the spec: the molecule record of renormalizer.model.mol.Mol,
which is outside the excerpt; model.py reads elocalex, e0, dipole and
ph_list. -/
structure Mol where
  elocalex : ℚ
  e0 : ℚ
  dipole : ℚ
  ph_list : List PhononR
deriving DecidableEq, Repr

/-- numpy isclose with the default tolerances rtol = 1e-5, atol = 1e-8:
abs (a - b) <= atol + rtol * abs b. -/
def npIsClose (a b : ℚ) : Bool :=
  decide (|a - b| ≤ 1 / 100000000 + (1 / 100000) * |b|)

/-- np.allclose(np.array(ph.force3rd), [0.0, 0.0]): both cubic force constants
are within tolerance of zero. -/
def force3rdIsZero (ph : PhononR) : Bool :=
  npIsClose ph.force3rd.1 0 && npIsClose ph.force3rd.2 0

/-- The j_matrix argument of HolsteinModel.__init__: absent (spin-boson),
a Quantity scalar, or a full numpy matrix. -/
inductive JArg where
  | noJ
  | quantity (c : ℚ)
  | matrix (m : List (List ℚ))

/-- Embeds construct_j_matrix (src/renormalizer/model/model.py lines 409-416):
the tridiagonal nearest-neighbour matrix with constant c, with the two corner
entries set when periodic (for mol_num = 1 the -1 index wraps to 0, so the
single entry becomes c). np.ones(mol_num - 1) raises ValueError for
mol_num = 0 (negative dimensions). -/
def construct_j_matrix (mol_num : Nat) (c : ℚ) (periodic : Bool) :
    Except PyError (List (List ℚ)) :=
  if mol_num = 0 then
    Except.error (PyError.valueError "negative dimensions are not allowed")
  else
    Except.ok <| (List.range mol_num).map fun i =>
      (List.range mol_num).map fun j =>
        if periodic ∧ ((i = 0 ∧ j = mol_num - 1) ∨ (i = mol_num - 1 ∧ j = 0)) then c
        else if i + 1 = j ∨ j + 1 = i then c
        else 0

/-- j_matrix[i, j]: numpy indexing, IndexError when out of range. -/
def matEntry (m : List (List ℚ)) (i j : Nat) : Except PyError ℚ :=
  match m.get? i with
  | none => Except.error PyError.indexError
  | some row =>
      match row.get? j with
      | none => Except.error PyError.indexError
      | some x => Except.ok x

/-- Embeds the j_matrix normalisation at the top of HolsteinModel.__init__
(src/renormalizer/model/model.py lines 164-174): None asserts a single
molecule and becomes Quantity(0); a Quantity goes through construct_j_matrix;
an explicit matrix is checked for non-zero corners when periodic (reading
m[0][-1] and m[-1][0], IndexError on an empty matrix) and for its first
dimension matching mol_num. -/
def resolveJMatrix (mol_num : Nat) (j : JArg) (periodic : Bool) :
    Except PyError (List (List ℚ)) :=
  match j with
  | JArg.noJ =>
      if mol_num = 1 then construct_j_matrix mol_num 0 periodic
      else Except.error PyError.assertionError
  | JArg.quantity c => construct_j_matrix mol_num c periodic
  | JArg.matrix m =>
      if periodic then
        match m.head?, m.getLast? with
        | some r0, some rl =>
            match r0.getLast?, rl.head? with
            | some c0, some c1 =>
                if c0 ≠ 0 ∧ c1 ≠ 0 then
                  if m.length = mol_num then Except.ok m
                  else Except.error PyError.assertionError
                else Except.error PyError.assertionError
            | _, _ => Except.error PyError.indexError
        | _, _ => Except.error PyError.indexError
      else
        if m.length = mol_num then Except.ok m
        else Except.error PyError.assertionError

/-- State threaded by the site-layout loops of HolsteinModel.__init__:
the order dict, the basis list and the (imol, iph) to v-index mapping under
construction, plus the idx / n_left_ph / nv counters. -/
structure LayoutAcc where
  order : List (DofName × Nat)
  basis : List BasisSet
  mapping : List ((Nat × Nat) × Nat)
  idx : Nat
  nv : Nat
deriving Repr

/-- Inner phonon loop of the scheme < 4 layout (src/renormalizer/model/model.py
lines 186-197): for each phonon of molecule imol append order entry
v_nv -> idx, mapping (imol, iph) -> nv, a BasisSHO site, and bump idx and
nv. -/
def s123Ph (imol : Nat) : List PhononR → Nat → LayoutAcc → LayoutAcc
  | [], _, acc => acc
  | ph :: rest, iph, acc =>
      s123Ph imol rest (iph + 1)
        { order := dictAssign acc.order (DofName.v acc.nv) acc.idx
          basis := acc.basis ++ [BasisSet.sho ph.omega.1 ph.n_phys_dim]
          mapping := dictAssign acc.mapping (imol, iph) acc.nv
          idx := acc.idx + 1
          nv := acc.nv + 1 }

/-- Outer molecule loop of the scheme < 4 layout: per molecule one
BasisSimpleElectron site for e_imol, then its phonon sites. -/
def s123Mol : List Mol → Nat → LayoutAcc → LayoutAcc
  | [], _, acc => acc
  | mol :: rest, imol, acc =>
      s123Mol rest (imol + 1)
        (s123Ph imol mol.ph_list 0
          { order := dictAssign acc.order (DofName.e imol) acc.idx
            basis := acc.basis ++ [BasisSet.simpleElectron]
            mapping := acc.mapping
            idx := acc.idx + 1
            nv := acc.nv })

/-- State threaded by the scheme 4 phonon loops: like LayoutAcc plus the
n_left_ph counter. -/
structure Layout4Acc where
  order : List (DofName × Nat)
  basis : List BasisSet
  mapping : List ((Nat × Nat) × Nat)
  idx : Nat
  n_left_ph : Nat
  nv : Nat
deriving Repr

/-- Inner phonon loop of the scheme 4 layout (src/renormalizer/model/model.py
lines 199-218): phonons of the left-half molecules (imol < n_left_mol) take
site idx and bump n_left_ph, later phonons take site idx + 1 (leaving room
for the shared electronic site). -/
def s4Ph (n_left_mol imol : Nat) : List PhononR → Nat → Layout4Acc → Layout4Acc
  | [], _, acc => acc
  | ph :: rest, iph, acc =>
      s4Ph n_left_mol imol rest (iph + 1)
        { order := dictAssign acc.order (DofName.v acc.nv)
            (if imol < n_left_mol then acc.idx else acc.idx + 1)
          basis := acc.basis ++ [BasisSet.sho ph.omega.1 ph.n_phys_dim]
          mapping := dictAssign acc.mapping (imol, iph) acc.nv
          idx := acc.idx + 1
          n_left_ph := if imol < n_left_mol then acc.n_left_ph + 1 else acc.n_left_ph
          nv := acc.nv + 1 }

/-- Outer molecule loop of the scheme 4 layout. -/
def s4Mol (n_left_mol : Nat) : List Mol → Nat → Layout4Acc → Layout4Acc
  | [], _, acc => acc
  | mol :: rest, imol, acc =>
      s4Mol n_left_mol rest (imol + 1) (s4Ph n_left_mol imol mol.ph_list 0 acc)

/-- The scheme 4 layout (src/renormalizer/model/model.py lines 199-222): run
the phonon loops, then map every e_imol to site n_left_ph and insert the
shared BasisMultiElectronVac(mol_num) site there. -/
def scheme4Layout (mols : List Mol) : LayoutAcc :=
  let mol_num := mols.length
  let n_left_mol := mol_num / 2
  let acc := s4Mol n_left_mol mols 0 ⟨[], [], [], 0, 0, 0⟩
  let order := (List.range mol_num).foldl
    (fun d imol => dictAssign d (DofName.e imol) acc.n_left_ph) acc.order
  { order := order
    basis := acc.basis.insertIdx acc.n_left_ph (BasisSet.multiElectronVac mol_num)
    mapping := acc.mapping
    idx := acc.idx
    nv := acc.nv }

/-- The scheme dispatch of HolsteinModel.__init__ (lines 185-225): any scheme
below 4 runs the scheme 1/2/3 layout, scheme 4 runs the merged-electron
layout, anything above 4 raises ValueError. -/
def holsteinLayout (mols : List Mol) (scheme : Int) : Except PyError LayoutAcc :=
  if scheme < 4 then
    Except.ok (s123Mol mols 0 ⟨[], [], [], 0, 0⟩)
  else if scheme = 4 then
    Except.ok (scheme4Layout mols)
  else
    Except.error (PyError.valueError ("invalid model.scheme: " ++ toString scheme))

/-- The number operator Op(r"a^\dagger a", 0) of model.py. -/
def opNum : Op := ⟨"a^\\dagger a", 0⟩

/-- The raising operator Op(r"a^\dagger", 1) of model.py. -/
def opRaise : Op := ⟨"a^\\dagger", 1⟩

/-- The lowering operator Op("a", -1) of model.py. -/
def opLower : Op := ⟨"a", -1⟩

/-- Inner jmol loop of the electronic term block of HolsteinModel.__init__
(src/renormalizer/model/model.py lines 230-237): the diagonal term gets the
number operator with coefficient elocalex + e0, every off-diagonal pair gets
raising x lowering with the matrix entry j_matrix[imol, jmol]. -/
def elecInner (mols : List Mol) (jm : List (List ℚ)) (imol : Nat) :
    List Nat → ModelDict → Except PyError ModelDict
  | [], d => Except.ok d
  | jmol :: rest, d =>
      if imol = jmol then
        match mols.get? imol with
        | none => Except.error PyError.indexError
        | some mol =>
            elecInner mols jm imol rest
              (dictAssign d [DofName.e imol] [([opNum], mol.elocalex + mol.e0)])
      else
        match matEntry jm imol jmol with
        | Except.error err => Except.error err
        | Except.ok jv =>
            elecInner mols jm imol rest
              (dictAssign d [DofName.e imol, DofName.e jmol] [([opRaise, opLower], jv)])

/-- Outer imol loop of the electronic term block. -/
def elecOuter (mols : List Mol) (jm : List (List ℚ)) :
    List Nat → ModelDict → Except PyError ModelDict
  | [], d => Except.ok d
  | imol :: rest, d =>
      match elecInner mols jm imol (List.range mols.length) d with
      | Except.error err => Except.error err
      | Except.ok d1 => elecOuter mols jm rest d1

/-- The whole electronic term block: both loops run over range(mol_num). -/
def buildElecTerms (mols : List Mol) (jm : List (List ℚ)) (d : ModelDict) :
    Except PyError ModelDict :=
  elecOuter mols jm (List.range mols.length) d

/-- Inner phonon loop of the vibration term block of HolsteinModel.__init__
(src/renormalizer/model/model.py lines 239-246): assert the cubic force
constants vanish (within np.allclose tolerance), then assign the kinetic and
harmonic-potential terms under the single-DoF key of this mode. -/
def vibPh (mapping : List ((Nat × Nat) × Nat)) (imol : Nat) :
    List PhononR → Nat → ModelDict → Except PyError ModelDict
  | [], _, d => Except.ok d
  | ph :: rest, iph, d =>
      if force3rdIsZero ph then
        match alookup mapping (imol, iph) with
        | none => Except.error PyError.keyError
        | some nv =>
            vibPh mapping imol rest (iph + 1)
              (dictAssign d [DofName.v nv]
                [([Op.mk "p^2" 0], 1 / 2), ([Op.mk "x^2" 0], 1 / 2 * ph.omega.1 ^ 2)])
      else
        Except.error PyError.assertionError

/-- Outer molecule loop of the vibration term block. -/
def vibMol (mapping : List ((Nat × Nat) × Nat)) :
    List Mol → Nat → ModelDict → Except PyError ModelDict
  | [], _, d => Except.ok d
  | mol :: rest, imol, d =>
      match vibPh mapping imol mol.ph_list 0 d with
      | Except.error err => Except.error err
      | Except.ok d1 => vibMol mapping rest (imol + 1) d1

/-- Inner phonon loop of the vibration potential block of
HolsteinModel.__init__ (src/renormalizer/model/model.py lines 249-259): under
the key (e_imol, v_n), one linear-coupling term when the two surface
frequencies agree within np.allclose tolerance, otherwise an extra quadratic
term for the frequency change. -/
def potPh (mapping : List ((Nat × Nat) × Nat)) (imol : Nat) :
    List PhononR → Nat → ModelDict → Except PyError ModelDict
  | [], _, d => Except.ok d
  | ph :: rest, iph, d =>
      match alookup mapping (imol, iph) with
      | none => Except.error PyError.keyError
      | some nv =>
          let key := [DofName.e imol, DofName.v nv]
          let d1 :=
            if npIsClose ph.omega.1 ph.omega.2 then
              dictAssign d key [([opNum, Op.mk "x" 0], -ph.omega.2 ^ 2 * ph.dis.2)]
            else
              dictAssign d key
                [([opNum, Op.mk "x^2" 0], 1 / 2 * (ph.omega.2 ^ 2 - ph.omega.1 ^ 2)),
                 ([opNum, Op.mk "x" 0], -ph.omega.2 ^ 2 * ph.dis.2)]
          potPh mapping imol rest (iph + 1) d1

/-- Outer molecule loop of the vibration potential block. -/
def potMol (mapping : List ((Nat × Nat) × Nat)) :
    List Mol → Nat → ModelDict → Except PyError ModelDict
  | [], _, d => Except.ok d
  | mol :: rest, imol, d =>
      match potPh mapping imol mol.ph_list 0 d with
      | Except.error err => Except.error err
      | Except.ok d1 => potMol mapping rest (imol + 1) d1

/-- The dipole dict of HolsteinModel.__init__ (lines 262-264):
(e_imol,) -> mol.dipole for each molecule. -/
def holsteinDipole (mols : List Mol) : DipoleDict :=
  mols.enum.foldl (fun d im => dictAssign d [DofName.e im.1] im.2.dipole) []

/-- A constructed HolsteinModel: the underlying Model plus the fields stored
by HolsteinModel.__init__. The Python code sets self.mol_num = self.n_edofs;
the layouts register exactly the electronic DoFs e_0 .. e_(mol_num - 1), so
n_edofs (and its internal contiguity assert, which then never fires) reduces
to the molecule count. -/
structure HolsteinS where
  modelS : ModelS
  j_matrix : List (List ℚ)
  scheme : Int
  periodic : Bool
  map : List ((Nat × Nat) × Nat)
  mol_num : Nat
deriving Repr

/-- Embeds HolsteinModel.__init__ (src/renormalizer/model/model.py lines
158-269): normalise j_matrix, build the site layout for the scheme, assemble
the electronic, vibrational and vibronic-potential terms of the model dict in
source order, build the dipole dict, and construct the underlying Model with
dict-form order and list-form basis. -/
def holsteinInit (mol_list : List Mol) (j : JArg) (scheme : Int)
    (periodic : Bool) : Except PyError HolsteinS :=
  match resolveJMatrix mol_list.length j periodic with
  | Except.error e => Except.error e
  | Except.ok jm =>
      match holsteinLayout mol_list scheme with
      | Except.error e => Except.error e
      | Except.ok layout =>
          match buildElecTerms mol_list jm [] with
          | Except.error e => Except.error e
          | Except.ok m1 =>
              match vibMol layout.mapping mol_list 0 m1 with
              | Except.error e => Except.error e
              | Except.ok m2 =>
                  match potMol layout.mapping mol_list 0 m2 with
                  | Except.error e => Except.error e
                  | Except.ok m3 =>
                      match modelInit (OrderArg.dict layout.order)
                          (BasisArg.list layout.basis) m3 (holsteinDipole mol_list) with
                      | Except.error e => Except.error e
                      | Except.ok ms =>
                          Except.ok ⟨ms, jm, scheme, periodic, layout.mapping,
                            mol_list.length⟩

/-- Order dict of a successful HolsteinModel construction (empty on error). -/
def holsteinOrder (r : Except PyError HolsteinS) : List (DofName × Nat) :=
  match r with
  | Except.ok st => st.modelS.order
  | Except.error _ => []

/-- Basis list of a successful HolsteinModel construction (empty on error). -/
def holsteinBasis (r : Except PyError HolsteinS) : List BasisSet :=
  match r with
  | Except.ok st => st.modelS.basis
  | Except.error _ => []

/-- Total number of phonon modes of a molecule list. -/
def sumPh (mols : List Mol) : Nat :=
  (mols.map (fun m => m.ph_list.length)).sum

/-
  src/renormalizer/model/model.py, VibronicModel.__init__
-/

/-- A sub-entry of an electronic key of the VibronicModel term table: either
the pure electronic coupling "J" : factor, or a vibrational DoF tuple with a
term list. -/
inductive SubEntry where
  | J (factor : ℚ)
  | vib (dofs : List DofName) (terms : List (List Op × ℚ))

/-- A top-level entry of the VibronicModel term table: the pure-vibrational
key "I" with its sub-dict, or a two-DoF electronic key with its sub-dict (the
code asserts the electronic key is a tuple of length 2). -/
inductive VibronicEntry where
  | pureVib (subs : List (List DofName × List (List Op × ℚ)))
  | elec (d1 d2 : DofName) (subs : List SubEntry)

/-- Processing of one sub-entry under an electronic key, from
VibronicModel.__init__ (src/renormalizer/model/model.py lines 355-361):
"J" assigns the pure electronic term, a vibrational sub-key appends one
translated term per original term, prefixing the electronic key and operators
and keeping the vibrational operators and the factor. -/
def vibronicElecSub (new_e_k : List DofName) (e_op : List Op) (acc : ModelDict) :
    SubEntry → ModelDict
  | SubEntry.J f => dictAssign acc new_e_k [(e_op, f)]
  | SubEntry.vib ks terms =>
      terms.foldl (fun a t => dictAppend a (new_e_k ++ ks) (e_op ++ t.1, t.2)) acc

/-- Processing of one top-level entry of the VibronicModel term table
(src/renormalizer/model/model.py lines 337-361): "I" sub-entries are assigned
through unchanged; under an electronic key the diagonal case re-keys to the
single DoF with the number operator, the off-diagonal case keeps both DoFs
with raising x lowering. -/
def vibronicEntryStep (acc : ModelDict) : VibronicEntry → ModelDict
  | VibronicEntry.pureVib subs =>
      subs.foldl (fun a kv => dictAssign a kv.1 kv.2) acc
  | VibronicEntry.elec d1 d2 subs =>
      let new_e_k := if d1 = d2 then [d1] else [d1, d2]
      let e_op := if d1 = d2 then [opNum] else [opRaise, opLower]
      subs.foldl (fun a se => vibronicElecSub new_e_k e_op a se) acc

/-- The new_model dict built by VibronicModel.__init__ before it calls
Model.__init__. -/
def vibronicNewModel (model : List VibronicEntry) : ModelDict :=
  model.foldl vibronicEntryStep []

/-- Embeds VibronicModel.__init__ (src/renormalizer/model/model.py lines
335-363): translate the term table, then construct the underlying Model. -/
def vibronicInit (order : OrderArg) (basis : BasisArg)
    (model : List VibronicEntry) (dipole : DipoleDict) : Except PyError ModelS :=
  modelInit order basis (vibronicNewModel model) dipole

/-
  src/ephMPS/model/phonon.py, Phonon.gs_mps
-/

/-- One tensor yielded by Phonon.gs_mps (src/ephMPS/model/phonon.py lines
49-56), as a rank-3 array of shape (1, base, 1). Starting from zeros, either
every physical entry is set to 1/sqrt(base) (max_entangled), or the single
entry at physical index 1 is set to 1.0, which is an out-of-bounds write
(IndexError, modelled as none) unless base is at least 2. -/
noncomputable def gsTensor (base : Nat) (maxEntangled : Bool) :
    Option (Fin 1 → Fin base → Fin 1 → ℝ) :=
  if maxEntangled then
    some (fun _ _ _ => 1 / Real.sqrt base)
  else if 1 < base then
    some (fun _ k _ => if (k : Nat) = 1 then 1 else 0)
  else
    none

/-- The generator Phonon.gs_mps run to a list: one tensor per sub-boson site
(the loop body runs nqboson times; with nqboson = 0 nothing is yielded and no
write happens). -/
noncomputable def gs_mps (base : Nat) (maxEntangled : Bool) :
    Nat → Option (List (Fin 1 → Fin base → Fin 1 → ℝ))
  | 0 => some []
  | n + 1 =>
      match gsTensor base maxEntangled with
      | none => none
      | some t => (gs_mps base maxEntangled n).map (fun l => t :: l)

/-
  Helper lemmas (shared)
-/

theorem alookup_get_mpos_self {V : Type} (cache : MpoCache V) (key : Nat)
    (f : Unit → V) :
    alookup (get_mpos cache key f).cache key = some (get_mpos cache key f).mpos := by
  unfold get_mpos
  cases h : alookup cache key with
  | some v => simp [h]
  | none => simp [alookup]

theorem alookup_get_mpos_preserve {V : Type} (cache : MpoCache V) (key k : Nat)
    (f : Unit → V) (r : V) (h : alookup cache key = some r) :
    alookup (get_mpos cache k f).cache key = some r := by
  unfold get_mpos
  cases hk : alookup cache k with
  | some v => simpa using h
  | none =>
      have hne : k ≠ key := by
        intro he; rw [he] at hk; rw [hk] at h; exact Option.noConfusion h
      simp [alookup, hne, h]

theorem alookup_runGetMpos_preserve {V : Type} (key : Nat) (r : V) :
    ∀ (calls : List (Nat × (Unit → V))) (cache : MpoCache V),
    alookup cache key = some r → alookup (runGetMpos cache calls).1 key = some r := by
  intro calls
  induction calls with
  | nil => intro cache h; simpa [runGetMpos] using h
  | cons c rest ih =>
      intro cache h
      obtain ⟨k, f⟩ := c
      simpa [runGetMpos] using ih _ (alookup_get_mpos_preserve cache key k f r h)

theorem get_mpos_hit {V : Type} (cache : MpoCache V) (key : Nat) (g : Unit → V)
    (r : V) (h : alookup cache key = some r) :
    get_mpos cache key g = ⟨r, cache, false⟩ := by
  unfold get_mpos; rw [h]

theorem countInvoked_cons (key k : Nat) (b : Bool) (tr : List (Nat × Bool)) :
    countInvoked key ((k, b) :: tr) =
      (if k = key ∧ b = true then 1 else 0) + countInvoked key tr := by
  by_cases h : k = key <;> cases b <;> simp [countInvoked, h] <;> omega

theorem countInvoked_runGetMpos {V : Type} (key : Nat) :
    ∀ (calls : List (Nat × (Unit → V))) (cache : MpoCache V),
    countInvoked key (runGetMpos cache calls).2 ≤
      (if (alookup cache key).isSome then 0 else 1) := by
  intro calls
  induction calls with
  | nil =>
      intro cache
      simp [runGetMpos, countInvoked]
  | cons c rest ih =>
      intro cache
      obtain ⟨k, f⟩ := c
      have hnext := ih (get_mpos cache k f).cache
      have hgoal :
          countInvoked key (runGetMpos cache ((k, f) :: rest)).2 =
            (if k = key ∧ (get_mpos cache k f).invoked = true then 1 else 0) +
              countInvoked key (runGetMpos (get_mpos cache k f).cache rest).2 := by
        simp only [runGetMpos]
        exact countInvoked_cons key k _ _
      rw [hgoal]
      by_cases hkey : k = key
      · subst hkey
        rw [alookup_get_mpos_self cache k f] at hnext
        simp only [Option.isSome_some, if_true] at hnext
        cases hl : alookup cache k with
        | some v =>
            have hr : get_mpos cache k f = ⟨v, cache, false⟩ := get_mpos_hit cache k f v hl
            rw [hr] at hnext ⊢
            simp only [hl, Option.isSome_some, if_true]
            simpa using hnext
        | none =>
            have hhead :
                (if k = k ∧ (get_mpos cache k f).invoked = true then 1 else 0) ≤ 1 := by
              split <;> omega
            have := Nat.add_le_add hhead hnext
            simpa using this
      · have hpres :
            (alookup (get_mpos cache k f).cache key).isSome =
              (alookup cache key).isSome := by
          unfold get_mpos
          cases hk : alookup cache k with
          | some v => simp
          | none => simp [alookup, hkey]
        rw [hpres] at hnext
        simpa [hkey] using hnext


theorem alookup_map_replace {K V : Type} [DecidableEq K] (k : K) (v : V) :
    ∀ (d : List (K × V)), (alookup d k).isSome = true →
    alookup (d.map (fun kv => if kv.1 = k then (kv.1, v) else kv)) k = some v := by
  intro d
  induction d with
  | nil => intro h; simp [alookup] at h
  | cons kv rest ih =>
      intro h
      by_cases hk : kv.1 = k
      · simp [alookup, hk]
      · simp only [alookup, hk, if_false, if_neg hk] at h
        simp only [List.map_cons, alookup, if_neg hk]
        exact ih h

theorem alookup_append_single {K V : Type} [DecidableEq K] (k : K) (v : V) :
    ∀ (d : List (K × V)), alookup d k = none →
    alookup (d ++ [(k, v)]) k = some v := by
  intro d
  induction d with
  | nil => intro _; simp [alookup]
  | cons kv rest ih =>
      intro h
      by_cases hk : kv.1 = k
      · simp [alookup, hk] at h
      · simp only [alookup, if_neg hk] at h
        simp only [List.cons_append, alookup, if_neg hk]
        exact ih h

theorem alookup_dictAssign_self {K V : Type} [DecidableEq K]
    (d : List (K × V)) (k : K) (v : V) :
    alookup (dictAssign d k v) k = some v := by
  unfold dictAssign
  by_cases hs : (alookup d k).isSome = true
  · rw [if_pos hs]
    exact alookup_map_replace k v d hs
  · rw [if_neg hs]
    exact alookup_append_single k v d (Option.not_isSome_iff_eq_none.mp hs)

theorem alookup_map_replace_ne {K V : Type} [DecidableEq K] (k k2 : K) (v : V)
    (hne : k2 ≠ k) :
    ∀ (d : List (K × V)),
    alookup (d.map (fun kv => if kv.1 = k then (kv.1, v) else kv)) k2 = alookup d k2 := by
  intro d
  induction d with
  | nil => simp [alookup]
  | cons kv rest ih =>
      by_cases hk2 : kv.1 = k2
      · by_cases hk : kv.1 = k
        · exact absurd (hk2.symm.trans hk) hne
        · simp [alookup, hk, hk2, hne]
      · by_cases hk : kv.1 = k
        · simp only [List.map_cons, if_pos hk, alookup, hk2, if_false, if_neg hk2]
          exact ih
        · simp only [List.map_cons, if_neg hk, alookup, if_neg hk2]
          exact ih

theorem alookup_append_single_ne {K V : Type} [DecidableEq K] (k k2 : K) (v : V)
    (hne : k2 ≠ k) :
    ∀ (d : List (K × V)), alookup (d ++ [(k, v)]) k2 = alookup d k2 := by
  intro d
  induction d with
  | nil =>
      simp only [List.nil_append, alookup]
      rw [if_neg (fun h => hne h.symm)]
  | cons kv rest ih =>
      by_cases hk2 : kv.1 = k2
      · simp [alookup, hk2]
      · simp only [List.cons_append, alookup, if_neg hk2]
        exact ih

theorem alookup_dictAssign_ne {K V : Type} [DecidableEq K]
    (d : List (K × V)) (k k2 : K) (v : V) (hne : k2 ≠ k) :
    alookup (dictAssign d k v) k2 = alookup d k2 := by
  unfold dictAssign
  by_cases hs : (alookup d k).isSome = true
  · rw [if_pos hs]
    exact alookup_map_replace_ne k k2 v hne d
  · rw [if_neg hs]
    exact alookup_append_single_ne k k2 v hne d

theorem alookup_dictAssign_isSome {K V : Type} [DecidableEq K]
    (d : List (K × V)) (k k2 : K) (v : V)
    (h : (alookup d k2).isSome = true) :
    (alookup (dictAssign d k v) k2).isSome = true := by
  by_cases hk : k2 = k
  · subst hk
    rw [alookup_dictAssign_self]
    rfl
  · rw [alookup_dictAssign_ne d k k2 v hk]
    exact h

theorem insertIdx_getElem?_self {β : Type} (l : List β) (a : β) (n : Nat)
    (h : n ≤ l.length) :
    (l.insertIdx n a)[n]? = some a := by
  have hlen : n < (l.insertIdx n a).length := by
    rw [List.length_insertIdx n l h]
    omega
  rw [List.getElem?_eq_getElem hlen]
  exact congrArg some (List.getElem_insertIdx_self l a n h)


theorem matEntry_construct (n : Nat) (c : ℚ) (per : Bool)
    (jm : List (List ℚ)) (hjm : construct_j_matrix n c per = Except.ok jm)
    (i j : Nat) (hi : i < n) (hj : j < n) :
    ∃ x, matEntry jm i j = Except.ok x := by
  have hn : n ≠ 0 := by omega
  unfold construct_j_matrix at hjm
  rw [if_neg hn] at hjm
  injection hjm with hjm2
  subst hjm2
  unfold matEntry
  rw [List.get?_map, List.get?_range hi]
  simp only [Option.map_some']
  rw [List.get?_map, List.get?_range hj]
  simp only [Option.map_some']
  exact ⟨_, rfl⟩

theorem elecInner_ok (mols : List Mol) (jm : List (List ℚ)) (imol : Nat)
    (hrow : ∀ i j, i < mols.length → j < mols.length →
      ∃ x, matEntry jm i j = Except.ok x)
    (himol : imol < mols.length) :
    ∀ (js : List Nat) (d : ModelDict), (∀ j ∈ js, j < mols.length) →
    ∃ d2, elecInner mols jm imol js d = Except.ok d2 := by
  intro js
  induction js with
  | nil => intro d _; exact ⟨d, rfl⟩
  | cons j rest ih =>
      intro d hjs
      by_cases he : imol = j
      · have hget : mols.get? imol = some (mols.get ⟨imol, himol⟩) :=
          List.get?_eq_get himol
        simp only [elecInner, if_pos he, hget]
        exact ih _ (fun x hx => hjs x (List.mem_cons_of_mem _ hx))
      · obtain ⟨x, hx⟩ := hrow imol j himol (hjs j (List.mem_cons_self j rest))
        simp only [elecInner, if_neg he, hx]
        exact ih _ (fun y hy => hjs y (List.mem_cons_of_mem _ hy))

theorem elecOuter_ok (mols : List Mol) (jm : List (List ℚ))
    (hrow : ∀ i j, i < mols.length → j < mols.length →
      ∃ x, matEntry jm i j = Except.ok x) :
    ∀ (is2 : List Nat) (d : ModelDict), (∀ i ∈ is2, i < mols.length) →
    ∃ d2, elecOuter mols jm is2 d = Except.ok d2 := by
  intro is2
  induction is2 with
  | nil => intro d _; exact ⟨d, rfl⟩
  | cons i rest ih =>
      intro d his
      obtain ⟨d1, hd1⟩ := elecInner_ok mols jm i hrow
        (his i (List.mem_cons_self i rest)) (List.range mols.length) d
        (fun j hj => List.mem_range.mp hj)
      simp only [elecOuter, hd1]
      exact ih d1 (fun y hy => his y (List.mem_cons_of_mem _ hy))

theorem buildElecTerms_ok (mols : List Mol) (jm : List (List ℚ))
    (hrow : ∀ i j, i < mols.length → j < mols.length →
      ∃ x, matEntry jm i j = Except.ok x) (d : ModelDict) :
    ∃ d2, buildElecTerms mols jm d = Except.ok d2 :=
  elecOuter_ok mols jm hrow (List.range mols.length) d
    (fun i hi => List.mem_range.mp hi)


theorem s123Ph_mapping_mono (imol : Nat) :
    ∀ (phs : List PhononR) (iph : Nat) (acc : LayoutAcc) (k : Nat × Nat),
    (alookup acc.mapping k).isSome = true →
    (alookup (s123Ph imol phs iph acc).mapping k).isSome = true := by
  intro phs
  induction phs with
  | nil => intro iph acc k h; simpa [s123Ph] using h
  | cons ph rest ih =>
      intro iph acc k h
      simp only [s123Ph]
      exact ih (iph + 1) _ k (alookup_dictAssign_isSome _ _ _ _ h)

theorem s123Ph_mapping_cover (imol : Nat) :
    ∀ (phs : List PhononR) (iph : Nat) (acc : LayoutAcc) (j : Nat),
    j < phs.length →
    (alookup (s123Ph imol phs iph acc).mapping (imol, iph + j)).isSome = true := by
  intro phs
  induction phs with
  | nil => intro iph acc j hj; simp at hj
  | cons ph rest ih =>
      intro iph acc j hj
      cases j with
      | zero =>
          simp only [s123Ph, Nat.add_zero]
          apply s123Ph_mapping_mono
          rw [alookup_dictAssign_self]
          rfl
      | succ j2 =>
          have hstep := ih (iph + 1) (⟨dictAssign acc.order (DofName.v acc.nv) acc.idx,
            acc.basis ++ [BasisSet.sho ph.omega.1 ph.n_phys_dim],
            dictAssign acc.mapping (imol, iph) acc.nv,
            acc.idx + 1, acc.nv + 1⟩) j2 (by simpa using Nat.lt_of_succ_lt_succ hj)
          simp only [s123Ph]
          rw [show iph + (j2 + 1) = (iph + 1) + j2 by omega]
          exact hstep

theorem s123Mol_mapping_mono :
    ∀ (mols : List Mol) (imol : Nat) (acc : LayoutAcc) (k : Nat × Nat),
    (alookup acc.mapping k).isSome = true →
    (alookup (s123Mol mols imol acc).mapping k).isSome = true := by
  intro mols
  induction mols with
  | nil => intro imol acc k h; simpa [s123Mol] using h
  | cons mol rest ih =>
      intro imol acc k h
      simp only [s123Mol]
      exact ih (imol + 1) _ k (s123Ph_mapping_mono imol mol.ph_list 0 _ k h)

theorem s123Mol_mapping_cover :
    ∀ (mols : List Mol) (imol0 : Nat) (acc : LayoutAcc) (i : Nat) (mol : Mol)
    (j : Nat), mols.get? i = some mol → j < mol.ph_list.length →
    (alookup (s123Mol mols imol0 acc).mapping (imol0 + i, j)).isSome = true := by
  intro mols
  induction mols with
  | nil => intro imol0 acc i mol j hget hj; simp at hget
  | cons mol0 rest ih =>
      intro imol0 acc i mol j hget hj
      cases i with
      | zero =>
          have hm : mol = mol0 := by simpa using hget.symm
          subst hm
          simp only [s123Mol, Nat.add_zero]
          apply s123Mol_mapping_mono
          have := s123Ph_mapping_cover imol0 mol.ph_list 0
            (⟨dictAssign acc.order (DofName.e imol0) acc.idx,
              acc.basis ++ [BasisSet.simpleElectron], acc.mapping,
              acc.idx + 1, acc.nv⟩) j hj
          simpa using this
      | succ i2 =>
          have hstep := ih (imol0 + 1) (s123Ph imol0 mol0.ph_list 0
            (⟨dictAssign acc.order (DofName.e imol0) acc.idx,
              acc.basis ++ [BasisSet.simpleElectron], acc.mapping,
              acc.idx + 1, acc.nv⟩)) i2 mol j (by simpa using hget) hj
          simp only [s123Mol]
          rw [show imol0 + (i2 + 1) = (imol0 + 1) + i2 by omega]
          exact hstep

theorem s4Ph_mapping_mono (nlm imol : Nat) :
    ∀ (phs : List PhononR) (iph : Nat) (acc : Layout4Acc) (k : Nat × Nat),
    (alookup acc.mapping k).isSome = true →
    (alookup (s4Ph nlm imol phs iph acc).mapping k).isSome = true := by
  intro phs
  induction phs with
  | nil => intro iph acc k h; simpa [s4Ph] using h
  | cons ph rest ih =>
      intro iph acc k h
      simp only [s4Ph]
      exact ih (iph + 1) _ k (alookup_dictAssign_isSome _ _ _ _ h)

theorem s4Ph_mapping_cover (nlm imol : Nat) :
    ∀ (phs : List PhononR) (iph : Nat) (acc : Layout4Acc) (j : Nat),
    j < phs.length →
    (alookup (s4Ph nlm imol phs iph acc).mapping (imol, iph + j)).isSome = true := by
  intro phs
  induction phs with
  | nil => intro iph acc j hj; simp at hj
  | cons ph rest ih =>
      intro iph acc j hj
      cases j with
      | zero =>
          simp only [s4Ph, Nat.add_zero]
          apply s4Ph_mapping_mono
          rw [alookup_dictAssign_self]
          rfl
      | succ j2 =>
          have hstep := ih (iph + 1)
            (⟨dictAssign acc.order (DofName.v acc.nv)
                (if imol < nlm then acc.idx else acc.idx + 1),
              acc.basis ++ [BasisSet.sho ph.omega.1 ph.n_phys_dim],
              dictAssign acc.mapping (imol, iph) acc.nv,
              acc.idx + 1,
              if imol < nlm then acc.n_left_ph + 1 else acc.n_left_ph,
              acc.nv + 1⟩) j2 (by simpa using Nat.lt_of_succ_lt_succ hj)
          simp only [s4Ph]
          rw [show iph + (j2 + 1) = (iph + 1) + j2 by omega]
          exact hstep

theorem s4Mol_mapping_mono (nlm : Nat) :
    ∀ (mols : List Mol) (imol : Nat) (acc : Layout4Acc) (k : Nat × Nat),
    (alookup acc.mapping k).isSome = true →
    (alookup (s4Mol nlm mols imol acc).mapping k).isSome = true := by
  intro mols
  induction mols with
  | nil => intro imol acc k h; simpa [s4Mol] using h
  | cons mol rest ih =>
      intro imol acc k h
      simp only [s4Mol]
      exact ih (imol + 1) _ k (s4Ph_mapping_mono nlm imol mol.ph_list 0 _ k h)

theorem s4Mol_mapping_cover (nlm : Nat) :
    ∀ (mols : List Mol) (imol0 : Nat) (acc : Layout4Acc) (i : Nat) (mol : Mol)
    (j : Nat), mols.get? i = some mol → j < mol.ph_list.length →
    (alookup (s4Mol nlm mols imol0 acc).mapping (imol0 + i, j)).isSome = true := by
  intro mols
  induction mols with
  | nil => intro imol0 acc i mol j hget hj; simp at hget
  | cons mol0 rest ih =>
      intro imol0 acc i mol j hget hj
      cases i with
      | zero =>
          have hm : mol = mol0 := by simpa using hget.symm
          subst hm
          simp only [s4Mol, Nat.add_zero]
          apply s4Mol_mapping_mono
          have := s4Ph_mapping_cover nlm imol0 mol.ph_list 0 acc j hj
          simpa using this
      | succ i2 =>
          have hstep := ih (imol0 + 1) (s4Ph nlm imol0 mol0.ph_list 0 acc) i2 mol j
            (by simpa using hget) hj
          simp only [s4Mol]
          rw [show imol0 + (i2 + 1) = (imol0 + 1) + i2 by omega]
          exact hstep


theorem vibPh_ok (mapping : List ((Nat × Nat) × Nat)) (imol : Nat) :
    ∀ (phs : List PhononR) (iph : Nat) (d : ModelDict),
    (∀ j, j < phs.length → (alookup mapping (imol, iph + j)).isSome = true) →
    (∀ ph ∈ phs, force3rdIsZero ph = true) →
    ∃ d2, vibPh mapping imol phs iph d = Except.ok d2 := by
  intro phs
  induction phs with
  | nil => intro iph d _ _; exact ⟨d, rfl⟩
  | cons ph rest ih =>
      intro iph d hcov hf
      have hf0 : force3rdIsZero ph = true := hf ph (List.mem_cons_self ph rest)
      have hc0 : (alookup mapping (imol, iph)).isSome = true := by
        have := hcov 0 (by simp)
        simpa using this
      obtain ⟨nv, hnv⟩ := Option.isSome_iff_exists.mp hc0
      simp only [vibPh, hf0, if_true, hnv]
      exact ih (iph + 1) _
        (fun j hj => by
          have := hcov (j + 1) (by simpa using Nat.succ_lt_succ hj)
          rw [show (iph + 1) + j = iph + (j + 1) by omega]
          exact this)
        (fun p hp => hf p (List.mem_cons_of_mem _ hp))

theorem vibMol_ok (mapping : List ((Nat × Nat) × Nat)) :
    ∀ (mols : List Mol) (imol0 : Nat) (d : ModelDict),
    (∀ i mol j, mols.get? i = some mol → j < mol.ph_list.length →
      (alookup mapping (imol0 + i, j)).isSome = true) →
    (∀ mol ∈ mols, ∀ ph ∈ mol.ph_list, force3rdIsZero ph = true) →
    ∃ d2, vibMol mapping mols imol0 d = Except.ok d2 := by
  intro mols
  induction mols with
  | nil => intro imol0 d _ _; exact ⟨d, rfl⟩
  | cons mol0 rest ih =>
      intro imol0 d hcov hf
      obtain ⟨d1, hd1⟩ := vibPh_ok mapping imol0 mol0.ph_list 0 d
        (fun j hj => by
          have := hcov 0 mol0 j (by simp) hj
          simpa using this)
        (fun ph hp => hf mol0 (List.mem_cons_self mol0 rest) ph hp)
      simp only [vibMol, hd1]
      exact ih (imol0 + 1) d1
        (fun i mol j hget hj => by
          have := hcov (i + 1) mol j (by simpa using hget) hj
          rw [show (imol0 + 1) + i = imol0 + (i + 1) by omega]
          exact this)
        (fun mol hm ph hp => hf mol (List.mem_cons_of_mem _ hm) ph hp)

theorem potPh_ok (mapping : List ((Nat × Nat) × Nat)) (imol : Nat) :
    ∀ (phs : List PhononR) (iph : Nat) (d : ModelDict),
    (∀ j, j < phs.length → (alookup mapping (imol, iph + j)).isSome = true) →
    ∃ d2, potPh mapping imol phs iph d = Except.ok d2 := by
  intro phs
  induction phs with
  | nil => intro iph d _; exact ⟨d, rfl⟩
  | cons ph rest ih =>
      intro iph d hcov
      have hc0 : (alookup mapping (imol, iph)).isSome = true := by
        have := hcov 0 (by simp)
        simpa using this
      obtain ⟨nv, hnv⟩ := Option.isSome_iff_exists.mp hc0
      simp only [potPh, hnv]
      exact ih (iph + 1) _
        (fun j hj => by
          have := hcov (j + 1) (by simpa using Nat.succ_lt_succ hj)
          rw [show (iph + 1) + j = iph + (j + 1) by omega]
          exact this)

theorem potMol_ok (mapping : List ((Nat × Nat) × Nat)) :
    ∀ (mols : List Mol) (imol0 : Nat) (d : ModelDict),
    (∀ i mol j, mols.get? i = some mol → j < mol.ph_list.length →
      (alookup mapping (imol0 + i, j)).isSome = true) →
    ∃ d2, potMol mapping mols imol0 d = Except.ok d2 := by
  intro mols
  induction mols with
  | nil => intro imol0 d _; exact ⟨d, rfl⟩
  | cons mol0 rest ih =>
      intro imol0 d hcov
      obtain ⟨d1, hd1⟩ := potPh_ok mapping imol0 mol0.ph_list 0 d
        (fun j hj => by
          have := hcov 0 mol0 j (by simp) hj
          simpa using this)
      simp only [potMol, hd1]
      exact ih (imol0 + 1) d1
        (fun i mol j hget hj => by
          have := hcov (i + 1) mol j (by simpa using hget) hj
          rw [show (imol0 + 1) + i = imol0 + (i + 1) by omega]
          exact this)

theorem modelInit_dict_list (o : List (DofName × Nat)) (b : List BasisSet)
    (m : ModelDict) (dip : DipoleDict) :
    modelInit (OrderArg.dict o) (BasisArg.list b) m dip =
      Except.ok ⟨o, b, b.any BasisSet.multi_dof, m, dip, b.map BasisSet.nbas⟩ := rfl

theorem holsteinLayout_cover (mols : List Mol) (scheme : Int) (layout : LayoutAcc)
    (hlay : holsteinLayout mols scheme = Except.ok layout) :
    ∀ i mol j, mols.get? i = some mol → j < mol.ph_list.length →
    (alookup layout.mapping (0 + i, j)).isSome = true := by
  intro i mol j hget hj
  unfold holsteinLayout at hlay
  by_cases h1 : scheme < 4
  · rw [if_pos h1] at hlay
    injection hlay with hlay2
    subst hlay2
    exact s123Mol_mapping_cover mols 0 ⟨[], [], [], 0, 0⟩ i mol j hget hj
  · rw [if_neg h1] at hlay
    by_cases h2 : scheme = 4
    · rw [if_pos h2] at hlay
      injection hlay with hlay2
      subst hlay2
      unfold scheme4Layout
      exact s4Mol_mapping_cover (mols.length / 2) mols 0 ⟨[], [], [], 0, 0, 0⟩
        i mol j hget hj
    · rw [if_neg h2] at hlay
      exact Except.noConfusion hlay

theorem holsteinInit_ok_layout (mols : List Mol) (c : ℚ) (per : Bool)
    (scheme : Int) (hm : mols.length ≠ 0) (hs : scheme ≤ 4)
    (hph : ∀ mol ∈ mols, ∀ ph ∈ mol.ph_list, force3rdIsZero ph = true) :
    ∃ st layout, holsteinLayout mols scheme = Except.ok layout ∧
      holsteinInit mols (JArg.quantity c) scheme per = Except.ok st ∧
      st.modelS.order = layout.order ∧ st.modelS.basis = layout.basis := by
  have hjm : resolveJMatrix mols.length (JArg.quantity c) per =
      construct_j_matrix mols.length c per := rfl
  have hcj : ∃ jm, construct_j_matrix mols.length c per = Except.ok jm := by
    unfold construct_j_matrix
    rw [if_neg hm]
    exact ⟨_, rfl⟩
  obtain ⟨jm, hjm2⟩ := hcj
  have hlay : ∃ layout, holsteinLayout mols scheme = Except.ok layout := by
    unfold holsteinLayout
    by_cases h1 : scheme < 4
    · rw [if_pos h1]; exact ⟨_, rfl⟩
    · rw [if_neg h1, if_pos (by omega : scheme = 4)]; exact ⟨_, rfl⟩
  obtain ⟨layout, hlay2⟩ := hlay
  have hcov := holsteinLayout_cover mols scheme layout hlay2
  obtain ⟨m1, hm1⟩ := buildElecTerms_ok mols jm
    (fun i j hi hj => matEntry_construct mols.length c per jm hjm2 i j hi hj) []
  obtain ⟨m2, hm2⟩ := vibMol_ok layout.mapping mols 0 m1 hcov hph
  obtain ⟨m3, hm3⟩ := potMol_ok layout.mapping mols 0 m2 hcov
  have hfinal : holsteinInit mols (JArg.quantity c) scheme per =
      Except.ok ⟨⟨layout.order, layout.basis, layout.basis.any BasisSet.multi_dof,
        m3, holsteinDipole mols, layout.basis.map BasisSet.nbas⟩, jm, scheme, per,
        layout.mapping, mols.length⟩ := by
    unfold holsteinInit
    simp only [hjm, hjm2, hlay2, hm1, hm2, hm3, modelInit_dict_list]
  exact ⟨_, layout, hlay2, hfinal, rfl, rfl⟩

theorem vibPh_shape (mapping : List ((Nat × Nat) × Nat)) (imol : Nat) :
    ∀ (phs : List PhononR) (iph : Nat) (d : ModelDict),
    (∀ j, j < phs.length → (alookup mapping (imol, iph + j)).isSome = true) →
    (∃ d2, vibPh mapping imol phs iph d = Except.ok d2) ∨
      vibPh mapping imol phs iph d = Except.error PyError.assertionError := by
  intro phs
  induction phs with
  | nil => intro iph d _; exact Or.inl ⟨d, rfl⟩
  | cons ph rest ih =>
      intro iph d hcov
      by_cases hf : force3rdIsZero ph = true
      · have hc0 : (alookup mapping (imol, iph)).isSome = true := by
          have := hcov 0 (by simp)
          simpa using this
        obtain ⟨nv, hnv⟩ := Option.isSome_iff_exists.mp hc0
        simp only [vibPh, hf, if_true, hnv]
        exact ih (iph + 1) _
          (fun j hj => by
            have := hcov (j + 1) (by simpa using Nat.succ_lt_succ hj)
            rw [show (iph + 1) + j = iph + (j + 1) by omega]
            exact this)
      · right
        simp only [vibPh, hf]
        simp

theorem vibPh_err (mapping : List ((Nat × Nat) × Nat)) (imol : Nat) :
    ∀ (phs : List PhononR) (iph : Nat) (d : ModelDict),
    (∀ j, j < phs.length → (alookup mapping (imol, iph + j)).isSome = true) →
    (∃ ph ∈ phs, force3rdIsZero ph = false) →
    vibPh mapping imol phs iph d = Except.error PyError.assertionError := by
  intro phs
  induction phs with
  | nil => intro iph d _ hbad; simp at hbad
  | cons ph rest ih =>
      intro iph d hcov hbad
      by_cases hf : force3rdIsZero ph = true
      · have hc0 : (alookup mapping (imol, iph)).isSome = true := by
          have := hcov 0 (by simp)
          simpa using this
        obtain ⟨nv, hnv⟩ := Option.isSome_iff_exists.mp hc0
        simp only [vibPh, hf, if_true, hnv]
        apply ih (iph + 1) _
        · intro j hj
          have := hcov (j + 1) (by simpa using Nat.succ_lt_succ hj)
          rw [show (iph + 1) + j = iph + (j + 1) by omega]
          exact this
        · obtain ⟨p, hp, hpf⟩ := hbad
          rcases List.mem_cons.mp hp with rfl | hp2
          · rw [hf] at hpf; exact Bool.noConfusion hpf
          · exact ⟨p, hp2, hpf⟩
      · simp only [vibPh, hf]
        simp

theorem vibMol_err (mapping : List ((Nat × Nat) × Nat)) :
    ∀ (mols : List Mol) (imol0 : Nat) (d : ModelDict),
    (∀ i mol j, mols.get? i = some mol → j < mol.ph_list.length →
      (alookup mapping (imol0 + i, j)).isSome = true) →
    (∃ mol ∈ mols, ∃ ph ∈ mol.ph_list, force3rdIsZero ph = false) →
    vibMol mapping mols imol0 d = Except.error PyError.assertionError := by
  intro mols
  induction mols with
  | nil => intro imol0 d _ hbad; simp at hbad
  | cons mol0 rest ih =>
      intro imol0 d hcov hbad
      have hcov0 : ∀ j, j < mol0.ph_list.length →
          (alookup mapping (imol0, 0 + j)).isSome = true := by
        intro j hj
        have := hcov 0 mol0 j (by simp) hj
        simpa using this
      obtain ⟨mol, hmem, hbadmol⟩ := hbad
      rcases List.mem_cons.mp hmem with rfl | hmem2
      · have herr := vibPh_err mapping imol0 mol.ph_list 0 d hcov0 hbadmol
        simp only [vibMol, herr]
      · rcases vibPh_shape mapping imol0 mol0.ph_list 0 d hcov0 with ⟨d1, hd1⟩ | herr
        · simp only [vibMol, hd1]
          exact ih (imol0 + 1) d1
            (fun i mol2 j hget hj => by
              have := hcov (i + 1) mol2 j (by simpa using hget) hj
              rw [show (imol0 + 1) + i = imol0 + (i + 1) by omega]
              exact this)
            ⟨mol, hmem2, hbadmol⟩
        · simp only [vibMol, herr]


theorem s4Ph_nlp (nlm imol : Nat) :
    ∀ (phs : List PhononR) (iph : Nat) (acc : Layout4Acc),
    (s4Ph nlm imol phs iph acc).n_left_ph =
      if imol < nlm then acc.n_left_ph + phs.length else acc.n_left_ph := by
  intro phs
  induction phs with
  | nil =>
      intro iph acc
      by_cases h : imol < nlm <;> simp [s4Ph, h]
  | cons ph rest ih =>
      intro iph acc
      simp only [s4Ph]
      rw [ih]
      by_cases h : imol < nlm <;> simp [h, List.length_cons] <;> omega

theorem s4Mol_nlp (nlm : Nat) :
    ∀ (mols : List Mol) (imol : Nat) (acc : Layout4Acc),
    (s4Mol nlm mols imol acc).n_left_ph =
      acc.n_left_ph + sumPh (mols.take (nlm - imol)) := by
  intro mols
  induction mols with
  | nil => intro imol acc; simp [s4Mol, sumPh]
  | cons mol rest ih =>
      intro imol acc
      simp only [s4Mol]
      rw [ih, s4Ph_nlp]
      by_cases h : imol < nlm
      · have h1 : nlm - imol = (nlm - (imol + 1)) + 1 := by omega
        rw [if_pos h, h1, List.take_succ_cons]
        simp only [sumPh, List.map_cons, List.sum_cons]
        omega
      · have h1 : nlm - imol = 0 := by omega
        have h2 : nlm - (imol + 1) = 0 := by omega
        rw [if_neg h, h1, h2]
        simp [sumPh]

theorem s4Ph_basis_len (nlm imol : Nat) :
    ∀ (phs : List PhononR) (iph : Nat) (acc : Layout4Acc),
    (s4Ph nlm imol phs iph acc).basis.length = acc.basis.length + phs.length := by
  intro phs
  induction phs with
  | nil => intro iph acc; simp [s4Ph]
  | cons ph rest ih =>
      intro iph acc
      simp only [s4Ph]
      rw [ih]
      simp
      omega

theorem s4Mol_basis_len (nlm : Nat) :
    ∀ (mols : List Mol) (imol : Nat) (acc : Layout4Acc),
    (s4Mol nlm mols imol acc).basis.length = acc.basis.length + sumPh mols := by
  intro mols
  induction mols with
  | nil => intro imol acc; simp [s4Mol, sumPh]
  | cons mol rest ih =>
      intro imol acc
      simp only [s4Mol]
      rw [ih, s4Ph_basis_len]
      simp only [sumPh, List.map_cons, List.sum_cons]
      omega

theorem sumPh_take_le (mols : List Mol) (k : Nat) :
    sumPh (mols.take k) ≤ sumPh mols := by
  conv_rhs => rw [← List.take_append_drop k mols]
  unfold sumPh
  rw [List.map_append, List.sum_append]
  exact Nat.le_add_right _ _

theorem foldl_assign_e_lookup :
    ∀ (n : Nat) (d : List (DofName × Nat)) (v : Nat) (i : Nat), i < n →
    alookup ((List.range n).foldl
      (fun a imol => dictAssign a (DofName.e imol) v) d) (DofName.e i) = some v := by
  intro n
  induction n with
  | zero => intro d v i hi; omega
  | succ n ih =>
      intro d v i hi
      rw [List.range_succ, List.foldl_append]
      simp only [List.foldl_cons, List.foldl_nil]
      by_cases h : i = n
      · subst h
        exact alookup_dictAssign_self _ _ _
      · rw [alookup_dictAssign_ne _ _ _ _ (by simp [h])]
        exact ih d v i (by omega)


theorem foldl_dictAppend_const {K A B : Type} [DecidableEq K] (k : K) (f : B → A) :
    ∀ (ts : List B) (cur : List A),
    (ts.foldl (fun d t => dictAppend d k (f t)) [(k, cur)]) = [(k, cur ++ ts.map f)] := by
  intro ts
  induction ts with
  | nil => intro cur; simp
  | cons t rest ih =>
      intro cur
      simp only [List.foldl_cons]
      have hstep : dictAppend [(k, cur)] k (f t) = [(k, cur ++ [f t])] := by
        unfold dictAppend
        rw [if_pos (by simp [alookup])]
        simp [alookup]
      rw [hstep, ih]
      simp

theorem foldl_dictAppend_nil {K A B : Type} [DecidableEq K] (k : K) (f : B → A)
    (t : B) (rest : List B) :
    ((t :: rest).foldl (fun d x => dictAppend d k (f x)) []) = [(k, (t :: rest).map f)] := by
  simp only [List.foldl_cons]
  have hstep : dictAppend ([] : List (K × List A)) k (f t) = [(k, [f t])] := by
    unfold dictAppend
    simp [alookup]
  rw [hstep, foldl_dictAppend_const]
  simp

theorem foldl_dictAssign_fresh {K V : Type} [DecidableEq K] :
    ∀ (subs : List (K × V)) (d : List (K × V)),
    (∀ k ∈ subs.map Prod.fst, alookup d k = none) →
    (subs.map Prod.fst).Nodup →
    subs.foldl (fun a kv => dictAssign a kv.1 kv.2) d = d ++ subs := by
  intro subs
  induction subs with
  | nil => intro d _ _; simp
  | cons kv rest ih =>
      intro d hfresh hnodup
      simp only [List.foldl_cons]
      have hnone : alookup d kv.1 = none :=
        hfresh kv.1 (by simp)
      have hd : dictAssign d kv.1 kv.2 = d ++ [(kv.1, kv.2)] := by
        unfold dictAssign
        rw [if_neg (by rw [hnone]; simp)]
      have hhead : kv.1 ∉ rest.map Prod.fst := by
        have := hnodup
        simp only [List.map_cons, List.nodup_cons] at this
        exact this.1
      rw [hd, ih (d ++ [(kv.1, kv.2)])]
      · simp
      · intro k hk
        have hkne : k ≠ kv.1 := fun he => hhead (he ▸ hk)
        rw [alookup_append_single_ne kv.1 k kv.2 hkne d]
        exact hfresh k (by simp [hk])
      · have := hnodup
        simp only [List.map_cons, List.nodup_cons] at this
        exact this.2

/-
  Claim theorems
-/

/-- C1: once Model.get_mpos has produced a result r for a key, any later
get_mpos call on that Model with the same key and any builder g returns the
same stored operator without invoking g, whatever other get_mpos calls happen
in between; and over a whole Model lifetime (any call sequence against the
initially empty cache) the builder is invoked at most once per distinct
key. -/
theorem getMpos_at_most_once_per_key {V : Type} (cache : MpoCache V) (key : Nat)
    (f g : Unit → V) (later allCalls : List (Nat × (Unit → V))) (k : Nat)
    (r : GetMposResult V) (h : get_mpos cache key f = r) :
    (get_mpos (runGetMpos r.cache later).1 key g).mpos = r.mpos ∧
    (get_mpos (runGetMpos r.cache later).1 key g).invoked = false ∧
    countInvoked k (runGetMpos ([] : MpoCache V) allCalls).2 ≤ 1 := by
  have hself := alookup_get_mpos_self cache key f
  rw [h] at hself
  have hpres := alookup_runGetMpos_preserve key r.mpos later r.cache hself
  have hhit := get_mpos_hit (runGetMpos r.cache later).1 key g r.mpos hpres
  refine ⟨by rw [hhit], by rw [hhit], ?_⟩
  have hcount := countInvoked_runGetMpos k allCalls ([] : MpoCache V)
  simpa [alookup] using hcount

/-- C1 witness: concrete run with value type Nat; the first call on key 0
builds 5, an unrelated call on key 1 intervenes, and the later call on key 0
with a different builder returns 5 without invoking it; a lifetime with two
calls on key 0 invokes the builder once. -/
theorem getMpos_at_most_once_per_key_witness :
    (get_mpos (runGetMpos [(0, 5)] [(1, fun _ => 9)]).1 0 (fun _ => 7)).mpos = 5 ∧
    (get_mpos (runGetMpos [(0, 5)] [(1, fun _ => 9)]).1 0 (fun _ => 7)).invoked = false ∧
    countInvoked 0 (runGetMpos ([] : MpoCache Nat)
      [(0, fun _ => 5), (0, fun _ => 7)]).2 ≤ 1 :=
  getMpos_at_most_once_per_key [] 0 (fun _ => 5) (fun _ => 7) [(1, fun _ => 9)]
    [(0, fun _ => 5), (0, fun _ => 7)] 0 ⟨5, [(0, 5)], true⟩ rfl

/-- C7: a Spectra job accepts the spectral type exactly when it is "emi" or
"abs"; "emi" selects excitation number 1, "abs" selects excitation number 0,
and any other value fails construction. -/
theorem spectraNexciton_spec (s : String) :
    (spectraNexciton s = Except.ok 1 ↔ s = "emi") ∧
    (spectraNexciton s = Except.ok 0 ↔ s = "abs") ∧
    ((spectraNexciton s).isOk = true ↔ (s = "emi" ∨ s = "abs")) := by
  by_cases h1 : s = "emi"
  · subst h1
    refine ⟨?_, ?_, ?_⟩ <;> simp [spectraNexciton, Except.isOk, Except.toBool]
  · by_cases h2 : s = "abs"
    · subst h2
      refine ⟨?_, ?_, ?_⟩ <;> simp [spectraNexciton, Except.isOk, Except.toBool]
    · refine ⟨?_, ?_, ?_⟩ <;> simp [spectraNexciton, Except.isOk, Except.toBool, h1, h2]

theorem runProcessMps_eq_append {α : Type} :
    ∀ (ps : List (BraKetPair α)) (acc : List α),
    runProcessMps acc ps = acc ++ ps.map BraKetPair.ft := by
  intro ps
  induction ps with
  | nil => intro acc; simp [runProcessMps]
  | cons p rest ih =>
      intro acc
      simp [runProcessMps, process_mps, ih]

/-- C8: after the per-step callback process_mps has been invoked on the
bra-ket pairs p_1 .. p_n in order, the accumulated autocorr sequence is
exactly the list of their ft overlap samples in the same order (hence has
length n, with no sample dropped, duplicated or reordered). -/
theorem autocorr_samples_in_step_order {α : Type} (ps : List (BraKetPair α)) :
    (runProcessMps ([] : List α) ps).length = ps.length ∧
    runProcessMps ([] : List α) ps = ps.map BraKetPair.ft := by
  have h := runProcessMps_eq_append ps ([] : List α)
  refine ⟨?_, by simpa using h⟩
  rw [h]
  simp

/-- C2 counterexample: an empty coupling matrix (no entries) does not reduce
to one non-zero value plus zeros, yet j_constant does not raise ValueError
there: the len(j_set) == 0 branch calls pop() on the empty set, which raises
KeyError, contradicting the claim that every failure is a ValueError. -/
theorem j_constant_empty_raises_keyError :
    j_constant [] = Except.error PyError.keyError ∧
    isValueError (j_constant []) = false ∧
    (j_constant []).isOk = false := by
  refine ⟨rfl, rfl, rfl⟩

theorem j_constant_ok_iff (entries : List ℚ) (j : ℚ) :
    j_constant entries = Except.ok j ↔ singleNonZeroPlusZeros entries j := by
  constructor
  · intro h
    unfold j_constant at h
    by_cases h0 : entries.dedup.length = 0
    · rw [if_pos h0] at h
      exact Except.noConfusion h
    · rw [if_neg h0] at h
      by_cases hc : entries.dedup.length = 2 ∧ 0 ∈ entries.dedup
      · rw [if_pos hc] at h
        obtain ⟨hlen, hmem⟩ := hc
        obtain ⟨a, b, hab⟩ := List.length_eq_two.mp hlen
        have hnd : entries.dedup.Nodup := entries.nodup_dedup
        rw [hab] at hmem hnd h
        have hane : a ≠ b := by simpa using hnd
        have hmem' : (0 : ℚ) = a ∨ (0 : ℚ) = b := by simpa using hmem
        rcases hmem' with h0a | h0b
        · rw [← h0a] at h hab hane
          rw [List.erase_cons_head] at h
          have hj : j = b := by simpa using h.symm
          subst hj
          refine ⟨fun hb => hane hb.symm, ?_, ?_, ?_⟩
          · rw [← List.mem_dedup, hab]; simp
          · rw [← List.mem_dedup, hab]; simp
          · intro x hx
            have : x ∈ entries.dedup := List.mem_dedup.mpr hx
            rw [hab] at this
            simpa using this
        · rw [← h0b] at h hab hane
          rw [List.erase_cons_tail, List.erase_cons_head] at h
          · have hj : j = a := by simpa using h.symm
            subst hj
            refine ⟨hane, ?_, ?_, ?_⟩
            · rw [← List.mem_dedup, hab]; simp
            · rw [← List.mem_dedup, hab]; simp
            · intro x hx
              have hxd : x ∈ entries.dedup := List.mem_dedup.mpr hx
              rw [hab] at hxd
              have hxx : x = j ∨ x = 0 := by simpa using hxd
              tauto
          · simpa using hane
      · rw [if_neg hc] at h
        exact Except.noConfusion h
  · intro hp
    obtain ⟨hj0, h0e, hje, hall⟩ := hp
    have hnd : entries.dedup.Nodup := entries.nodup_dedup
    have hnd2 : ([0, j] : List ℚ).Nodup := by simp [Ne.symm hj0]
    have hperm : entries.dedup.Perm [0, j] := by
      rw [List.perm_ext_iff_of_nodup hnd hnd2]
      intro x
      rw [List.mem_dedup]
      constructor
      · intro hx
        rcases hall x hx with hx0 | hxj
        · simp [hx0]
        · simp [hxj]
      · intro hx
        rcases (by simpa using hx : x = 0 ∨ x = j) with rfl | rfl
        · exact h0e
        · exact hje
    have hlen : entries.dedup.length = 2 := by simpa using hperm.length_eq
    have hmem : (0 : ℚ) ∈ entries.dedup := List.mem_dedup.mpr h0e
    have herase : entries.dedup.erase 0 = [j] := by
      have h1 : (entries.dedup.erase 0).Perm (([0, j] : List ℚ).erase 0) :=
        hperm.erase 0
      rw [List.erase_cons_head] at h1
      exact List.perm_singleton.mp h1
    unfold j_constant
    rw [if_neg (by omega), if_pos ⟨hlen, hmem⟩, herase]
    rfl

/-- C2 amended: for every NON-EMPTY coupling matrix, j_constant returns j
exactly when the entries consist of the single non-zero value j plus zeros
(both present), and raises ValueError "J is not constant" in every other
case; the empty matrix instead raises KeyError (pop from an empty set). -/
theorem j_constant_single_constant (entries : List ℚ) (hne : entries ≠ []) :
    (∀ j : ℚ, j_constant entries = Except.ok j ↔ singleNonZeroPlusZeros entries j) ∧
    ((¬ ∃ j, singleNonZeroPlusZeros entries j) →
      j_constant entries = Except.error (PyError.valueError "J is not constant")) := by
  refine ⟨fun j => j_constant_ok_iff entries j, fun hno => ?_⟩
  have hd0 : entries.dedup.length ≠ 0 := by
    intro h
    exact hne (List.length_eq_zero.mp h ▸ (List.dedup_eq_nil entries).mp
      (List.length_eq_zero.mp h))
  by_cases hc : entries.dedup.length = 2 ∧ 0 ∈ entries.dedup
  · exfalso
    have hok : j_constant entries = Except.ok (entries.dedup.erase 0).headI := by
      unfold j_constant
      rw [if_neg hd0, if_pos hc]
    exact hno ⟨_, (j_constant_ok_iff entries _).mp hok⟩
  · unfold j_constant
    rw [if_neg hd0, if_neg hc]

/-- C2 amended witness: the matrix with entries 0 and 5 yields the constant
5. -/
theorem j_constant_single_constant_witness : j_constant [0, 5] = Except.ok 5 :=
  ((j_constant_single_constant [0, 5] (by decide)).1 5).mpr (by decide)

/-- C4 counterexample: order given as a dict placing the single DoF at site 1
(values not a contiguous range from 0) with basis given in LIST form: Model
construction succeeds, contradicting the claim that such an order fails
construction regardless of whether basis is in list or dict form. -/
theorem modelInit_list_basis_skips_order_check :
    (modelInit (OrderArg.dict [(DofName.v 0, 1)])
      (BasisArg.list [BasisSet.simpleElectron]) [] []).isOk = true ∧
    contiguousFromZero (orderValueSet (OrderArg.dict [(DofName.v 0, 1)])) = false := by
  exact ⟨rfl, rfl⟩

/-- C4 amended: the contiguity validation of Model.__init__ runs only when
basis is given in dict form: there, whenever the distinct values of the
derived order dict are not contiguous integers from 0, construction fails
with a ValueError (the source has no ModelConsistencyError class; the message
is the contiguity message, or the min-of-empty-sequence message for an empty
order). With list-form basis no such validation happens, and duplicate order
values (DoFs sharing a site) are permitted by the check. -/
theorem modelInit_dict_basis_contiguity (order : OrderArg)
    (bd : List (DofName × BasisSet)) (model : ModelDict) (dipole : DipoleDict)
    (h : contiguousFromZero (orderValueSet order) = false) :
    ∃ msg, modelInit order (BasisArg.dict bd) model dipole =
      Except.error (PyError.valueError msg) := by
  unfold contiguousFromZero orderValueSet at h
  unfold modelInit resolveBasisArg
  cases hmn : ((derivedOrder order).map Prod.snd).dedup.min? with
  | none =>
      have hnil := List.min?_eq_none_iff.mp hmn
      have hmx : ((derivedOrder order).map Prod.snd).dedup.max? = none := by
        rw [hnil]; rfl
      refine ⟨"min() arg is an empty sequence", ?_⟩
      simp [hmn, hmx]
  | some mn =>
      cases hmx : ((derivedOrder order).map Prod.snd).dedup.max? with
      | none =>
          refine ⟨"min() arg is an empty sequence", ?_⟩
          simp [hmn, hmx]
      | some mx =>
          rw [hmn, hmx] at h
          have hcond : mn ≠ 0 ∨ mx ≠ ((derivedOrder order).map Prod.snd).dedup.length - 1 := by
            by_contra hno
            push_neg at hno
            simp [hno.1, hno.2] at h
          refine ⟨"order is not continuous integers from 0", ?_⟩
          simp [hmn, hmx, hcond]

/-- C4 amended witness: a dict-form basis with the DoF at site 5 fails with a
ValueError. -/
theorem modelInit_dict_basis_contiguity_witness :
    ∃ msg, modelInit (OrderArg.dict [(DofName.v 0, 5)])
      (BasisArg.dict [(DofName.v 0, BasisSet.simpleElectron)]) [] [] =
      Except.error (PyError.valueError msg) :=
  modelInit_dict_basis_contiguity (OrderArg.dict [(DofName.v 0, 5)])
    [(DofName.v 0, BasisSet.simpleElectron)] [] [] rfl

/-- C3 amended: HolsteinModel construction fails fast, with
ValueError "invalid model.scheme: <scheme>", exactly for integer schemes
GREATER than 4 (before any model is assembled); every scheme value below 4,
including 0 and negative values, is treated like the scheme 1/2/3 layout and
constructs a model. -/
theorem holstein_invalid_scheme (mols : List Mol) (c : ℚ) (per : Bool)
    (scheme : Int) (hm : mols ≠ []) (hs : 4 < scheme) :
    holsteinInit mols (JArg.quantity c) scheme per =
      Except.error (PyError.valueError ("invalid model.scheme: " ++ toString scheme)) := by
  have hm0 : mols.length ≠ 0 := fun h => hm (List.length_eq_zero.mp h)
  have h1 : ¬ scheme < 4 := by omega
  have h2 : ¬ scheme = 4 := by omega
  unfold holsteinInit resolveJMatrix construct_j_matrix holsteinLayout
  simp [hm0, h1, h2]

/-- C3 amended witness: scheme 7 on a one-molecule list fails with the
descriptive ValueError. -/
theorem holstein_invalid_scheme_witness :
    holsteinInit [⟨1, 0, 2, [⟨(1, 1), (0, 1 / 2), (0, 0), 4⟩]⟩]
      (JArg.quantity (1 / 10)) 7 false =
      Except.error (PyError.valueError ("invalid model.scheme: " ++ toString (7 : Int))) :=
  holstein_invalid_scheme [⟨1, 0, 2, [⟨(1, 1), (0, 1 / 2), (0, 0), 4⟩]⟩]
    (1 / 10) false 7 (by decide) (by decide)

/-- C3 counterexample: scheme 0 is not one of the four documented layout
schemes, yet HolsteinModel construction succeeds with it: any scheme below 4
is routed into the scheme 1/2/3 branch, so no error is raised. -/
theorem holstein_scheme_zero_constructs :
    ¬ ((0 : Int) = 1 ∨ (0 : Int) = 2 ∨ (0 : Int) = 3 ∨ (0 : Int) = 4) ∧
    (holsteinInit [⟨1, 0, 2, [⟨(1, 1), (0, 1), (0, 0), 4⟩]⟩]
      (JArg.quantity 1) 0 false).isOk = true := by
  constructor
  · decide
  · have hph : ∀ mol ∈ [(⟨1, 0, 2, [⟨(1, 1), (0, 1), (0, 0), 4⟩]⟩ : Mol)],
        ∀ ph ∈ mol.ph_list, force3rdIsZero ph = true := by
      intro mol hmm ph hp
      simp only [List.mem_singleton] at hmm
      subst hmm
      simp only [List.mem_singleton] at hp
      subst hp
      simp only [force3rdIsZero, npIsClose, Bool.and_eq_true, decide_eq_true_eq]
      constructor <;> norm_num
    obtain ⟨st, layout, _, hok, _, _⟩ := holsteinInit_ok_layout
      [⟨1, 0, 2, [⟨(1, 1), (0, 1), (0, 0), 4⟩]⟩] 1 false 0
      (by decide) (by decide) hph
    rw [hok]
    rfl

/-- C9 counterexample: a phonon whose cubic force constant is tiny but NOT
zero (1e-9 on the ground surface) still passes the np.allclose tolerance
(atol = 1e-8), so HolsteinModel construction succeeds, contradicting the
claim that any not-both-zero force3rd fails construction. -/
theorem holstein_tiny_force3rd_constructs :
    ((1 : ℚ) / 1000000000, (0 : ℚ)) ≠ ((0 : ℚ), (0 : ℚ)) ∧
    (holsteinInit [⟨1, 0, 2, [⟨(1, 1), (0, 1), (1 / 1000000000, 0), 4⟩]⟩]
      (JArg.quantity 1) 2 false).isOk = true := by
  constructor
  · intro h
    have h1 : (1 : ℚ) / 1000000000 = 0 := congrArg Prod.fst h
    norm_num at h1
  · have hph : ∀ mol ∈
        [(⟨1, 0, 2, [⟨(1, 1), (0, 1), (1 / 1000000000, 0), 4⟩]⟩ : Mol)],
        ∀ ph ∈ mol.ph_list, force3rdIsZero ph = true := by
      intro mol hmm ph hp
      simp only [List.mem_singleton] at hmm
      subst hmm
      simp only [List.mem_singleton] at hp
      subst hp
      simp only [force3rdIsZero, npIsClose, Bool.and_eq_true, decide_eq_true_eq]
      constructor
      · rw [sub_zero, abs_of_nonneg (by norm_num : (0 : ℚ) ≤ 1 / 1000000000),
          abs_zero, mul_zero, add_zero]
        norm_num
      · norm_num
    obtain ⟨st, layout, _, hok, _, _⟩ := holsteinInit_ok_layout
      [⟨1, 0, 2, [⟨(1, 1), (0, 1), (1 / 1000000000, 0), 4⟩]⟩] 1 false 2
      (by decide) (by decide) hph
    rw [hok]
    rfl

/-- C9 amended: HolsteinModel construction (any accepted scheme, non-empty
molecule list) fails with AssertionError whenever some phonon of some
molecule has a cubic force constant whose two surface values are not both
within the np.allclose default tolerance of zero (elementwise
abs value at most 1e-8); values that are non-zero but within tolerance are
accepted, so the model is harmonic only up to that tolerance. -/
theorem holstein_force3rd_tolerance (mols : List Mol) (c : ℚ) (per : Bool)
    (scheme : Int) (hm : mols ≠ []) (hs : scheme ≤ 4)
    (hbad : ∃ mol ∈ mols, ∃ ph ∈ mol.ph_list, force3rdIsZero ph = false) :
    holsteinInit mols (JArg.quantity c) scheme per =
      Except.error PyError.assertionError := by
  have hm0 : mols.length ≠ 0 := fun h => hm (List.length_eq_zero.mp h)
  have hjm : resolveJMatrix mols.length (JArg.quantity c) per =
      construct_j_matrix mols.length c per := rfl
  obtain ⟨jm, hjm2⟩ : ∃ jm, construct_j_matrix mols.length c per = Except.ok jm := by
    unfold construct_j_matrix
    rw [if_neg hm0]
    exact ⟨_, rfl⟩
  obtain ⟨layout, hlay2⟩ : ∃ layout, holsteinLayout mols scheme = Except.ok layout := by
    unfold holsteinLayout
    by_cases h1 : scheme < 4
    · rw [if_pos h1]; exact ⟨_, rfl⟩
    · rw [if_neg h1, if_pos (by omega : scheme = 4)]; exact ⟨_, rfl⟩
  have hcov := holsteinLayout_cover mols scheme layout hlay2
  obtain ⟨m1, hm1⟩ := buildElecTerms_ok mols jm
    (fun i j hi hj => matEntry_construct mols.length c per jm hjm2 i j hi hj) []
  have herr := vibMol_err layout.mapping mols 0 m1 hcov hbad
  unfold holsteinInit
  simp only [hjm, hjm2, hlay2, hm1, herr]

/-- C9 amended witness: a phonon with cubic force constant 1 on the ground
surface makes scheme 2 construction fail with AssertionError. -/
theorem holstein_force3rd_tolerance_witness :
    holsteinInit [⟨1, 0, 2, [⟨(1, 1), (0, 1), (1, 0), 4⟩]⟩]
      (JArg.quantity 1) 2 false = Except.error PyError.assertionError :=
  holstein_force3rd_tolerance [⟨1, 0, 2, [⟨(1, 1), (0, 1), (1, 0), 4⟩]⟩] 1 false 2
    (by decide) (by decide)
    ⟨⟨1, 0, 2, [⟨(1, 1), (0, 1), (1, 0), 4⟩]⟩, by simp,
     ⟨(1, 1), (0, 1), (1, 0), 4⟩, by simp,
     by
      simp only [force3rdIsZero, npIsClose]
      norm_num⟩

/-- C5: for every HolsteinModel built with scheme 4 (non-empty molecule list,
phonons passing the harmonicity assert): construction succeeds, every
electronic DoF e_0 .. e_(mol_num - 1) is mapped by order to one and the same
site index, that index equals the total number of phonon modes of the first
floor(mol_num / 2) molecules, and the basis at that site is the single
multi-electron-vacuum basis spanning mol_num electronic DoFs. -/
theorem holstein_scheme4_merged_electron (mols : List Mol) (c : ℚ) (per : Bool)
    (hm : mols ≠ [])
    (hph : ∀ mol ∈ mols, ∀ ph ∈ mol.ph_list, force3rdIsZero ph = true) :
    (holsteinInit mols (JArg.quantity c) 4 per).isOk = true ∧
    (∀ i, i < mols.length →
      alookup (holsteinOrder (holsteinInit mols (JArg.quantity c) 4 per))
        (DofName.e i) = some (sumPh (mols.take (mols.length / 2)))) ∧
    (holsteinBasis (holsteinInit mols (JArg.quantity c) 4 per))[sumPh
        (mols.take (mols.length / 2))]? =
      some (BasisSet.multiElectronVac mols.length) := by
  have hm0 : mols.length ≠ 0 := fun h => hm (List.length_eq_zero.mp h)
  obtain ⟨st, layout, hlay, hok, hord, hbas⟩ :=
    holsteinInit_ok_layout mols c per 4 hm0 (by omega) hph
  have hlay4 : layout = scheme4Layout mols := by
    unfold holsteinLayout at hlay
    rw [if_neg (by omega : ¬ (4 : Int) < 4), if_pos rfl] at hlay
    injection hlay with h
    exact h.symm
  subst hlay4
  have hnlp : (s4Mol (mols.length / 2) mols 0 ⟨[], [], [], 0, 0, 0⟩).n_left_ph =
      sumPh (mols.take (mols.length / 2)) := by
    rw [s4Mol_nlp]
    simp
  have hblen : (s4Mol (mols.length / 2) mols 0 ⟨[], [], [], 0, 0, 0⟩).basis.length =
      sumPh mols := by
    rw [s4Mol_basis_len]
    simp
  rw [hok]
  refine ⟨rfl, ?_, ?_⟩
  · intro i hi
    simp only [holsteinOrder]
    rw [hord]
    show alookup (scheme4Layout mols).order (DofName.e i) = _
    unfold scheme4Layout
    simp only
    rw [foldl_assign_e_lookup mols.length _ _ i hi, hnlp]
  · simp only [holsteinBasis]
    rw [hbas]
    show ((scheme4Layout mols).basis)[sumPh (mols.take (mols.length / 2))]? = _
    unfold scheme4Layout
    simp only
    rw [← hnlp]
    exact insertIdx_getElem?_self _ _ _ (by rw [hnlp, hblen]; exact sumPh_take_le mols _)

/-- C5 witness: two molecules with one and two phonon modes; the electronic
site sits at index 1 (the single phonon of the first molecule), and holds the
two-electron vacuum basis. -/
theorem holstein_scheme4_merged_electron_witness :
    ((holsteinInit [⟨1, 0, 2, [⟨(1, 1), (0, 1), (0, 0), 4⟩]⟩,
        ⟨1, 0, 2, [⟨(1, 1), (0, 1), (0, 0), 4⟩, ⟨(2, 2), (0, 1), (0, 0), 4⟩]⟩]
      (JArg.quantity 1) 4 false).isOk = true ∧
    (∀ i, i < 2 →
      alookup (holsteinOrder (holsteinInit [⟨1, 0, 2, [⟨(1, 1), (0, 1), (0, 0), 4⟩]⟩,
          ⟨1, 0, 2, [⟨(1, 1), (0, 1), (0, 0), 4⟩, ⟨(2, 2), (0, 1), (0, 0), 4⟩]⟩]
        (JArg.quantity 1) 4 false))
        (DofName.e i) = some (sumPh ([⟨1, 0, 2, [⟨(1, 1), (0, 1), (0, 0), 4⟩]⟩,
          ⟨1, 0, 2, [⟨(1, 1), (0, 1), (0, 0), 4⟩, ⟨(2, 2), (0, 1), (0, 0), 4⟩]⟩].take 1))) ∧
    (holsteinBasis (holsteinInit [⟨1, 0, 2, [⟨(1, 1), (0, 1), (0, 0), 4⟩]⟩,
        ⟨1, 0, 2, [⟨(1, 1), (0, 1), (0, 0), 4⟩, ⟨(2, 2), (0, 1), (0, 0), 4⟩]⟩]
      (JArg.quantity 1) 4 false))[sumPh ([⟨1, 0, 2, [⟨(1, 1), (0, 1), (0, 0), 4⟩]⟩,
        ⟨1, 0, 2, [⟨(1, 1), (0, 1), (0, 0), 4⟩, ⟨(2, 2), (0, 1), (0, 0), 4⟩]⟩].take 1)]? =
      some (BasisSet.multiElectronVac 2)) :=
  holstein_scheme4_merged_electron
    [⟨1, 0, 2, [⟨(1, 1), (0, 1), (0, 0), 4⟩]⟩,
     ⟨1, 0, 2, [⟨(1, 1), (0, 1), (0, 0), 4⟩, ⟨(2, 2), (0, 1), (0, 0), 4⟩]⟩] 1 false
    (by decide)
    (by
      intro mol hmm ph hp
      fin_cases hmm <;> fin_cases hp <;>
        (simp only [force3rdIsZero, npIsClose]; norm_num))

/-- C6: the VibronicModel re-keying transform: a term table entry under a
diagonal electronic key (e_i, e_i) becomes a term keyed by the single DoF
with the number operator prefixed; an off-diagonal key (e_i, e_j), i /= j,
keeps both DoFs and prefixes raising and lowering operators; entries under
the pure-vibrational key "I" pass through with their vibrational sub-keys
unchanged; in every translated term the original vibrational local operators
and the scalar factor are preserved. -/
theorem vibronic_rekeying (d d1 d2 : DofName) (ks ks2 : List DofName)
    (terms terms2 : List (List Op × ℚ))
    (subs : List (List DofName × List (List Op × ℚ)))
    (hne : d1 ≠ d2) (hterms : terms ≠ []) (hterms2 : terms2 ≠ [])
    (hnodup : (subs.map Prod.fst).Nodup) :
    vibronicNewModel [VibronicEntry.elec d d [SubEntry.vib ks terms]] =
      [(d :: ks, terms.map (fun t => (opNum :: t.1, t.2)))] ∧
    vibronicNewModel [VibronicEntry.elec d1 d2 [SubEntry.vib ks2 terms2]] =
      [(d1 :: d2 :: ks2, terms2.map (fun t => (opRaise :: opLower :: t.1, t.2)))] ∧
    vibronicNewModel [VibronicEntry.pureVib subs] = subs := by
  have hstep_diag : ∀ (acc : ModelDict) (ss : List SubEntry),
      vibronicEntryStep acc (VibronicEntry.elec d d ss) =
        ss.foldl (fun a se => vibronicElecSub [d] [opNum] a se) acc := by
    intro acc ss
    simp only [vibronicEntryStep, eq_self_iff_true, if_true]
  have hstep_off : ∀ (acc : ModelDict) (ss : List SubEntry),
      vibronicEntryStep acc (VibronicEntry.elec d1 d2 ss) =
        ss.foldl (fun a se => vibronicElecSub [d1, d2] [opRaise, opLower] a se) acc := by
    intro acc ss
    simp only [vibronicEntryStep, if_neg hne]
  refine ⟨?_, ?_, ?_⟩
  · obtain ⟨t0, ts, rfl⟩ := List.exists_cons_of_ne_nil hterms
    unfold vibronicNewModel
    simp only [List.foldl_cons, List.foldl_nil]
    rw [hstep_diag]
    simp only [List.foldl_cons, List.foldl_nil]
    simp only [vibronicElecSub]
    rw [foldl_dictAppend_nil ([d] ++ ks) (fun t => ([opNum] ++ t.1, t.2)) t0 ts]
    simp
  · obtain ⟨t0, ts, rfl⟩ := List.exists_cons_of_ne_nil hterms2
    unfold vibronicNewModel
    simp only [List.foldl_cons, List.foldl_nil]
    rw [hstep_off]
    simp only [List.foldl_cons, List.foldl_nil]
    simp only [vibronicElecSub]
    rw [foldl_dictAppend_nil ([d1, d2] ++ ks2)
      (fun t => ([opRaise, opLower] ++ t.1, t.2)) t0 ts]
    simp
  · unfold vibronicNewModel
    simp only [List.foldl_cons, List.foldl_nil]
    simp only [vibronicEntryStep]
    rw [foldl_dictAssign_fresh subs [] (fun k _ => rfl) hnodup]
    simp

/-- C6 witness: one diagonal entry, one off-diagonal entry and one
pure-vibrational entry at concrete values. -/
theorem vibronic_rekeying_witness :
    vibronicNewModel [VibronicEntry.elec (DofName.e 0) (DofName.e 0)
        [SubEntry.vib [DofName.v 0] [([Op.mk "x" 0], 1)]]] =
      [(DofName.e 0 :: [DofName.v 0],
        [([Op.mk "x" 0], (1 : ℚ))].map (fun t => (opNum :: t.1, t.2)))] ∧
    vibronicNewModel [VibronicEntry.elec (DofName.e 0) (DofName.e 1)
        [SubEntry.vib [DofName.v 1] [([Op.mk "x" 0], 2)]]] =
      [(DofName.e 0 :: DofName.e 1 :: [DofName.v 1],
        [([Op.mk "x" 0], (2 : ℚ))].map (fun t => (opRaise :: opLower :: t.1, t.2)))] ∧
    vibronicNewModel [VibronicEntry.pureVib [([DofName.v 0], [([Op.mk "p^2" 0], 1)])]] =
      [([DofName.v 0], [([Op.mk "p^2" 0], (1 : ℚ))])] :=
  vibronic_rekeying (DofName.e 0) (DofName.e 0) (DofName.e 1) [DofName.v 0]
    [DofName.v 1] [([Op.mk "x" 0], 1)] [([Op.mk "x" 0], 2)]
    [([DofName.v 0], [([Op.mk "p^2" 0], 1)])]
    (by decide) (by decide) (by decide) (by decide)

theorem gsTensor_true (base : Nat) :
    gsTensor base true = some (fun _ _ _ => 1 / Real.sqrt base) := rfl

theorem gsTensor_false_ge2 (base : Nat) (h : 1 < base) :
    gsTensor base false = some (fun (_ : Fin 1) (k : Fin base) (_ : Fin 1) =>
      if (k : Nat) = 1 then (1 : ℝ) else 0) := by
  unfold gsTensor
  rw [if_neg (by simp), if_pos h]

theorem gsTensor_false_small (base : Nat) (h : ¬ 1 < base) :
    gsTensor base false = none := by
  unfold gsTensor
  rw [if_neg (by simp), if_neg h]

theorem gs_mps_replicate (base : Nat) (me : Bool) (t : Fin 1 → Fin base → Fin 1 → ℝ)
    (ht : gsTensor base me = some t) :
    ∀ q, gs_mps base me q = some (List.replicate q t) := by
  intro q
  induction q with
  | zero => rfl
  | succ n ih => simp [gs_mps, ht, ih, List.replicate_succ]

/-- C10: Phonon.gs_mps yields exactly nqboson tensors of shape (1, base, 1)
(the shape is carried by the tensor type): with max_entangled every entry is
1/sqrt(base) and each tensor has unit squared norm over the physical index;
without max_entangled the single non-zero entry, of value 1.0, sits at
physical index 1 (all other entries are zero), which requires base at least
2: for base at most 1 (and at least one yielded tensor) the write at index 1
is out of bounds and the generator fails. -/
theorem gs_mps_structure (base q : Nat) (hb1 : 1 ≤ base) (hb2 : 2 ≤ base)
    (hq : 1 ≤ q) :
    (∃ l, gs_mps base true q = some l ∧ l.length = q ∧
      ∀ t ∈ l, (∀ k : Fin base, t 0 k 0 = 1 / Real.sqrt base) ∧
        ∑ k : Fin base, (t 0 k 0) ^ 2 = 1) ∧
    (∃ l, gs_mps base false q = some l ∧ l.length = q ∧
      ∀ t ∈ l, t 0 (⟨1, by omega⟩ : Fin base) 0 = 1 ∧
        ∀ k : Fin base, (k : Nat) ≠ 1 → t 0 k 0 = 0) ∧
    (∀ b2 q2, b2 ≤ 1 → 1 ≤ q2 → gs_mps b2 false q2 = none) := by
  have hb0 : (0 : ℝ) < (base : ℝ) := by
    have : 0 < base := by omega
    exact_mod_cast this
  refine ⟨?_, ?_, ?_⟩
  · refine ⟨_, gs_mps_replicate base true _ (gsTensor_true base) q, ?_, ?_⟩
    · simp
    · intro t ht
      have hteq := List.eq_of_mem_replicate ht
      subst hteq
      refine ⟨fun k => rfl, ?_⟩
      rw [Finset.sum_const, Finset.card_univ, Fintype.card_fin]
      rw [nsmul_eq_mul, div_pow, one_pow, Real.sq_sqrt hb0.le]
      field_simp
  · refine ⟨_, gs_mps_replicate base false _ (gsTensor_false_ge2 base (by omega)) q,
      ?_, ?_⟩
    · simp
    · intro t ht
      have hteq := List.eq_of_mem_replicate ht
      subst hteq
      refine ⟨by simp, fun k hk => by simp [hk]⟩
  · intro b2 q2 hb hq2
    obtain ⟨q3, rfl⟩ : ∃ q3, q2 = q3 + 1 := ⟨q2 - 1, by omega⟩
    simp [gs_mps, gsTensor_false_small b2 (by omega)]

/-- C10 witness: base 2 with a single sub-boson site. -/
theorem gs_mps_structure_witness :
    (∃ l, gs_mps 2 true 1 = some l ∧ l.length = 1 ∧
      ∀ t ∈ l, (∀ k : Fin 2, t 0 k 0 = 1 / Real.sqrt 2) ∧
        ∑ k : Fin 2, (t 0 k 0) ^ 2 = 1) ∧
    (∃ l, gs_mps 2 false 1 = some l ∧ l.length = 1 ∧
      ∀ t ∈ l, t 0 (⟨1, by omega⟩ : Fin 2) 0 = 1 ∧
        ∀ k : Fin 2, (k : Nat) ≠ 1 → t 0 k 0 = 0) ∧
    (∀ b2 q2, b2 ≤ 1 → 1 ≤ q2 → gs_mps b2 false q2 = none) := by
  have h := gs_mps_structure 2 1 (by omega) (by omega) (by omega)
  refine ⟨?_, ?_, h.2.2⟩
  · obtain ⟨l, h1, h2, h3⟩ := h.1
    exact ⟨l, by exact_mod_cast h1, h2, h3⟩
  · obtain ⟨l, h1, h2, h3⟩ := h.2.1
    exact ⟨l, h1, h2, h3⟩
